import Mathlib

/-!
Verification of the playlist-manager reconciliation core.

This file gives a shallow embedding, in Lean, of the parts of the
repository that the claims of the specification are about:

* `rate_limiter.py` — retry classification, backoff delays and the
  bounded retry loop (`SpotifyRateLimiter`);
* `remove_duplicates_from_playlist.py` — the simulation primitives,
  the duplicate grouping, the removal planner and its execution loop;
* `sort_playlist_by_release_date.py` — the batch sort planner
  (`batch_sort_playlist`) and its emitted moves.

Python dicts (which preserve insertion order) are modelled as ordered
association lists, Python lists as `List`, floats used for delays as
`ℚ` (all delay arithmetic performed by the source is exact on the
rationals), and remote failures as explicit outcome values.  Randomized
jitter is a parameter (the theorems below take the deterministic
`jitter = false` path, as the specification itself does).
-/

set_option autoImplicit false

namespace PlaylistManager

/-! ## Python primitives

The source leans on a handful of Python built-ins: stable `sorted`,
`str.lower`, `str.strip`, `int(str)` and string comparison.  They are
modelled here by structurally recursive functions so that every
definition in this file evaluates inside the kernel. -/

/-- Stable insertion of `a` into a sorted list: `a` goes in front of
the first element it compares `le` to, so earlier elements stay ahead
of later tied ones. -/
def orderedInsertB {α : Type} (le : α → α → Bool) (a : α) : List α → List α
  | [] => [a]
  | b :: l => if le a b then a :: b :: l else b :: orderedInsertB le a l

/-- Stable sort by a boolean comparison; the model of the stable Python
`sorted` (descending sorts pass the flipped comparison, which is what
`reverse=True` denotes: ties keep their original relative order). -/
def pySorted {α : Type} (le : α → α → Bool) : List α → List α
  | [] => []
  | a :: l => orderedInsertB le a (pySorted le l)

/-- Lexicographic comparison of code-point sequences, the Python `<=` on
strings. -/
def charListLE : List Char → List Char → Bool
  | [], _ => true
  | _ :: _, [] => false
  | a :: as, b :: bs =>
    if a.toNat < b.toNat then true
    else if b.toNat < a.toNat then false
    else charListLE as bs

/-- Python string comparison `a <= b`. -/
def pyStrLE (a b : String) : Bool :=
  charListLE a.data b.data

/-- Whitespace as stripped by the Python `str.strip()` (the ASCII
whitespace characters that can occur in the data at hand). -/
def pyIsSpace (c : Char) : Bool :=
  c = ' ' ∨ c = '\t' ∨ c = '\n' ∨ c = '\r'

/-- Python `str.strip()`: drop whitespace from both ends. -/
def pyStrip (s : String) : String :=
  String.mk (((s.data.dropWhile pyIsSpace).reverse.dropWhile pyIsSpace).reverse)

/-- Python `str.lower()` (on the ASCII range the data uses). -/
def pyLower (s : String) : String :=
  String.mk (s.data.map Char.toLower)

/-- Decimal digit accumulator for `pyParseInt`; any non-digit character
makes the parse fail. -/
def parseDigits : List Char → Nat → Option Nat
  | [], acc => some acc
  | c :: rest, acc =>
    if c.isDigit then parseDigits rest (acc * 10 + (c.toNat - 48)) else none

/-- Python `int(s)` on the decimal forms a `Retry-After` header can
take: surrounding whitespace is ignored, an optional sign is followed
by at least one digit; anything else raises (here: `none`). -/
def pyParseInt (s : String) : Option Int :=
  let cs := ((s.data.dropWhile pyIsSpace).reverse.dropWhile pyIsSpace).reverse
  match cs with
  | [] => none
  | '+' :: rest =>
    match rest with
    | [] => none
    | _ => (parseDigits rest 0).map (fun n => (n : Int))
  | '-' :: rest =>
    match rest with
    | [] => none
    | _ => (parseDigits rest 0).map (fun n => -(n : Int))
  | _ => (parseDigits cs 0).map (fun n => (n : Int))

/-! ## Rate limiter (`rate_limiter.py`) -/

/-- Outcome of one attempted remote call: the call returns a value,
raises a `SpotifyException` carrying an HTTP status and an optional
`Retry-After` header, or raises some non-Spotify exception. -/
inductive CallOutcome (α : Type) where
  | success (v : α)
  | spotifyError (status : Int) (retryAfterHeader : Option String)
  | otherError (tag : String)
  deriving DecidableEq

/-- Embedding of `SpotifyRateLimiter._handle_spotify_exception`
(`rate_limiter.py` lines 85-117).  Returns `(should_retry, retry_after)`.
On a 429 the `Retry-After` header is parsed as an integer when present
and non-empty (unparsable values become `none`); statuses 500, 502, 503
and 504 are retryable without a delay hint; everything else is not
retried. -/
def handleSpotifyException (status : Int) (retryAfterHeader : Option String) :
    Bool × Option Int :=
  if status = 429 then
    let retryAfter : Option Int :=
      match retryAfterHeader with
      | none => none
      | some s => if s ≠ "" then pyParseInt s else none
    (true, retryAfter)
  else if status = 500 ∨ status = 502 ∨ status = 503 ∨ status = 504 then
    (true, none)
  else
    (false, none)

/-- Embedding of `SpotifyRateLimiter._calculate_delay`
(`rate_limiter.py` lines 45-71).  `jitterTerm` stands for the random
perturbation drawn by the source when `jitter` is enabled; the Python
`if retry_after:` test is falsy both for `None` and for `0`. -/
def calculateDelay (baseDelay maxDelay : ℚ) (jitter : Bool) (jitterTerm : ℚ)
    (attempt : Nat) (retryAfter : Option Int) : ℚ :=
  let delay : ℚ :=
    match retryAfter with
    | some r => if r ≠ 0 then (r : ℚ) else baseDelay * 2 ^ attempt
    | none => baseDelay * 2 ^ attempt
  let capped := min delay maxDelay
  let jittered := if jitter then capped + jitterTerm else capped
  max 0 jittered

/-- Result of `SpotifyRateLimiter.execute_with_retry`: either the value
of a successful call, or the exception finally raised to the caller.
The `attempts` field counts how many calls were made in total. -/
inductive RetryResult (α : Type) where
  | ok (v : α) (attempts : Nat)
  | raisedSpotify (status : Int) (retryAfterHeader : Option String) (attempts : Nat)
  | raisedOther (tag : String) (attempts : Nat)
  deriving DecidableEq

/-- Total number of calls made before the result was produced. -/
def RetryResult.attempts {α : Type} : RetryResult α → Nat
  | .ok _ n => n
  | .raisedSpotify _ _ n => n
  | .raisedOther _ n => n

/-- Loop body of `execute_with_retry` (`rate_limiter.py` lines 136-166):
`for attempt in range(max_retries + 1)`.  A Spotify error is re-raised
as soon as it is non-retryable or `attempt >= max_retries`; any other
exception is re-raised at once.  `fuel` is the number of remaining loop
iterations, so the fuel-exhausted branch is unreachable from
`executeWithRetry`. -/
def retryAux {α : Type} (calls : Nat → CallOutcome α) (maxRetries : Nat) :
    Nat → Nat → RetryResult α
  | _, 0 => .raisedOther "maximum retries exceeded" 0
  | attempt, fuel + 1 =>
    match calls attempt with
    | .success v => .ok v (attempt + 1)
    | .spotifyError st hd =>
      if (handleSpotifyException st hd).1 = false ∨ maxRetries ≤ attempt then
        .raisedSpotify st hd (attempt + 1)
      else
        retryAux calls maxRetries (attempt + 1) fuel
    | .otherError tag => .raisedOther tag (attempt + 1)

/-- Embedding of `SpotifyRateLimiter.execute_with_retry`
(`rate_limiter.py` lines 119-172).  `calls i` is the outcome the wrapped
function produces on its `i`-th invocation. -/
def executeWithRetry {α : Type} (calls : Nat → CallOutcome α) (maxRetries : Nat) :
    RetryResult α :=
  retryAux calls maxRetries 0 (maxRetries + 1)

/-! ## Simulation primitives (`remove_duplicates_from_playlist.py`) -/

/-- Python `list.pop(pos)` guarded by `0 <= pos < len`, as in the loop
body of `simulate_remove_positions`. -/
def pyRemoveAt {α : Type} (l : List α) (p : Nat) : List α :=
  if p < l.length then l.eraseIdx p else l

/-- Embedding of `simulate_remove_positions`
(`remove_duplicates_from_playlist.py` lines 6-26): sort the positions in
descending order, then pop each position that is still in range. -/
def simulateRemovePositions {α : Type} (sim : List α) (positions : List Nat) : List α :=
  (pySorted (fun a b => decide (b ≤ a)) positions).foldl pyRemoveAt sim

/-- Embedding of `simulate_add_at_position`
(`remove_duplicates_from_playlist.py` lines 29-45): the requested
position, an arbitrary integer, is clamped to `[0, len]` and the token
is inserted there. -/
def simulateAddAtPosition {α : Type} (sim : List α) (uri : α) (position : Int) : List α :=
  let p : Nat := (max 0 (min position (sim.length : Int))).toNat
  sim.insertIdx p uri

/-- Embedding of `find_current_positions`
(`remove_duplicates_from_playlist.py` lines 48-63), with the running
index made explicit: collect the indices whose entry equals the target
URI.  Entries are `Option String` because the simulation stores `None`
for items without a track. -/
def findPositionsFrom : List (Option String) → String → Nat → List Nat
  | [], _, _ => []
  | x :: rest, target, i =>
    if x = some target then i :: findPositionsFrom rest target (i + 1)
    else findPositionsFrom rest target (i + 1)

/-- Positions of all occurrences of `target` in the simulation. -/
def findCurrentPositions (sim : List (Option String)) (target : String) : List Nat :=
  findPositionsFrom sim target 0

/-! ## Duplicate-removal planner (`remove_duplicates_from_playlist.py`) -/

/-- The track fields the dedup scan reads: title, artist list, URI. -/
structure Track where
  name : String
  artists : List String
  uri : String
  deriving DecidableEq

/-- Embedding of the `track_key` computation
(`remove_duplicates_from_playlist.py` lines 117-124): lowercased,
stripped title, plus the sorted lowercased stripped artist names,
joined by the separator. -/
def trackKey (t : Track) : String :=
  let artists := pySorted pyStrLE (t.artists.map (fun a => pyStrip (pyLower a)))
  pyStrip (pyLower t.name) ++ "|||" ++ String.intercalate "|||" artists

/-- One scan record (the `track_info` dict of the source restricted to the
fields the planner computes with): the snapshot position, the URI and
the derived dedup key. -/
structure TrackInfo where
  position : Nat
  uri : String
  key : String
  deriving DecidableEq

/-- The scan loop of Step 3 (`remove_duplicates_from_playlist.py`
lines 115-146): enumerate the fetched items, skipping entries without
a track or with a falsy (empty) name, and record position, URI and key.
`i` is the running `enumerate` index. -/
def scanInfosFrom : List (Option Track) → Nat → List TrackInfo
  | [], _ => []
  | none :: rest, i => scanInfosFrom rest (i + 1)
  | some t :: rest, i =>
    if t.name ≠ "" then
      ⟨i, t.uri, trackKey t⟩ :: scanInfosFrom rest (i + 1)
    else
      scanInfosFrom rest (i + 1)

/-- All scan records of a snapshot. -/
def scanInfos (tracks : List (Option Track)) : List TrackInfo :=
  scanInfosFrom tracks 0

/-- Append `v` to the bucket of key `k`, creating the bucket at the end
when absent.  This is the effect of `dict[k].append(v)` on a Python
dict that preserves insertion order. -/
def assocAdd {β : Type} : List (String × List β) → String → β → List (String × List β)
  | [], k, v => [(k, [v])]
  | (k', vs) :: rest, k, v =>
    if k' = k then (k', vs ++ [v]) :: rest else (k', vs) :: assocAdd rest k v

/-- Group a list into buckets by a string key, preserving both the
first-appearance order of keys and the order within each bucket, as a
Python dict / defaultdict of lists does. -/
def buildAssoc {α β : Type} (l : List α) (key : α → String) (val : α → β) :
    List (String × List β) :=
  l.foldl (fun m x => assocAdd m (key x) (val x)) []

/-- Look up a bucket; missing keys give the empty bucket. -/
def lookupA {β : Type} : List (String × List β) → String → List β
  | [], _ => []
  | (k', vs) :: rest, k => if k' = k then vs else lookupA rest k

/-- The `track_positions` dict: scan records bucketed by dedup key. -/
def trackBuckets (tracks : List (Option Track)) : List (String × List TrackInfo) :=
  buildAssoc (scanInfos tracks) (fun r => r.key) id

/-- The `uri_usage` dict, reduced to the occurrence positions: scan
records bucketed by URI. -/
def uriUsage (tracks : List (Option Track)) : List (String × List Nat) :=
  buildAssoc (scanInfos tracks) (fun r => r.uri) (fun r => r.position)

/-- The `len(uri_usage[uri])` count of the source: how many scanned snapshot items
carry this URI. -/
def uriUsageCount (tracks : List (Option Track)) (uri : String) : Nat :=
  (lookupA (uriUsage tracks) uri).length

/-- Duplicate groups (`remove_duplicates_from_playlist.py` lines
158-181): buckets with at least two occurrences, occurrences sorted by
position.  The group is kept as its key together with the sorted
occurrence list; the dict fields of the source (`positions`, `uris`,
counts) are projections of that list. -/
def duplicateGroups (tracks : List (Option Track)) : List (String × List TrackInfo) :=
  (trackBuckets tracks).filterMap (fun kv =>
    if 1 < kv.2.length then
      some (kv.1, pySorted (fun a b => decide (a.position ≤ b.position)) kv.2)
    else none)

/-- The `duplicate_positions_to_remove` list (lines 190-199): for each
group, every occurrence except the first (the keeper) becomes a removal
candidate, in group order. -/
def removalCandidates (tracks : List (Option Track)) : List TrackInfo :=
  (duplicateGroups tracks).flatMap (fun g => g.2.tail)

/-- The partition test of Step 4 (lines 207-217): a removal candidate
needs the remove-all-and-re-add treatment exactly when its URI occurs
more than once in the whole scanned snapshot. -/
def isSharedURI (tracks : List (Option Track)) (uri : String) : Bool :=
  decide (1 < uriUsageCount tracks uri)

/-- The `unique_uri_removals` list before sorting: candidates whose URI
is globally unique, in candidate order. -/
def uniqueURIRemovals (tracks : List (Option Track)) : List TrackInfo :=
  (removalCandidates tracks).filter (fun r => !isSharedURI tracks r.uri)

/-- The `identical_uri_groups` defaultdict: shared-URI candidates
bucketed by URI, in first-appearance order. -/
def identicalURIGroups (tracks : List (Option Track)) : List (String × List TrackInfo) :=
  buildAssoc ((removalCandidates tracks).filter (fun r => isSharedURI tracks r.uri))
    (fun r => r.uri) id

/-- Line 220: unique-URI removals sorted by original position in
descending order (stable, like the Python `sort(reverse=True)`). -/
def sortedUniqueRemovals (tracks : List (Option Track)) : List TrackInfo :=
  pySorted (fun a b => decide (b.position ≤ a.position)) (uniqueURIRemovals tracks)

/-- Python `min` over a list of naturals (call sites guard against the
empty list, on which Python would raise). -/
def pyMin (l : List Nat) : Nat :=
  match l with
  | [] => 0
  | x :: rest => rest.foldl min x

/-- The initial playlist simulation (line 278): the URI of each fetched
item, or `none` for items without a track. -/
def initialSimulation (tracks : List (Option Track)) : List (Option String) :=
  tracks.map (fun ot => ot.map (fun t => t.uri))

/-- A planned mutation, as recorded in `operations_to_execute`
(lines 308-315 and 342-348). -/
inductive PlannedOp where
  | removeAllReadd (uri : String) (group : List TrackInfo)
      (currentPositions : List Nat) (targetPosition : Nat)
  | removeSpecific (uri : String) (item : TrackInfo)
      (currentPosition : Nat) (originalPosition : Nat)
  deriving DecidableEq

/-- Planning loop for identical-URI groups (lines 288-319): find the
current simulated positions of the URI (skipping the group when none are
left), keep the minimum, record a remove-all-and-re-add operation and
update the simulation accordingly. -/
def planIdenticalAux : List (String × List TrackInfo) → List (Option String) →
    List PlannedOp × List (Option String)
  | [], sim => ([], sim)
  | (uri, group) :: rest, sim =>
    let ps := findCurrentPositions sim uri
    if ps = [] then planIdenticalAux rest sim
    else
      let keep := pyMin ps
      let sim' := simulateAddAtPosition (simulateRemovePositions sim ps) (some uri)
        (keep : Int)
      let next := planIdenticalAux rest sim'
      (.removeAllReadd uri group ps keep :: next.1, next.2)

/-- Planning loop for unique-URI removals (lines 335-352): find the
current simulated position of the URI (skipping when absent), record a
position-specific removal and remove it from the simulation. -/
def planUniqueAux : List TrackInfo → List (Option String) →
    List PlannedOp × List (Option String)
  | [], sim => ([], sim)
  | item :: rest, sim =>
    match findCurrentPositions sim item.uri with
    | [] => planUniqueAux rest sim
    | p :: _ =>
      let sim' := simulateRemovePositions sim [p]
      let next := planUniqueAux rest sim'
      (.removeSpecific item.uri item p item.position :: next.1, next.2)

/-- The full planning phase: identical-URI groups first, then the
position-descending unique removals.  Returns the planned operation
list together with the final predicted simulation state. -/
def planOperations (tracks : List (Option Track)) :
    List PlannedOp × List (Option String) :=
  let step1 := planIdenticalAux (identicalURIGroups tracks) (initialSimulation tracks)
  let step2 := planUniqueAux (sortedUniqueRemovals tracks) step1.2
  (step1.1 ++ step2.1, step2.2)

/-- Remote semantics of one executed operation (lines 376-457), on an
abstract ordered collection of identity tokens:
`playlist_remove_all_occurrences_of_items` deletes every entry with the
URI and `playlist_add_items` re-inserts it at the target position
(clamped to the collection length); a position-specific removal first
verifies the URI at the position and deletes that single entry, and is
skipped (with an error record) on mismatch. -/
def applyPlannedOp (remote : List (Option String)) : PlannedOp → List (Option String)
  | .removeAllReadd uri _ _ target =>
    let removed := remote.filter (fun x => decide (x ≠ some uri))
    removed.insertIdx (min target removed.length) (some uri)
  | .removeSpecific uri _ currentPos _ =>
    if remote[currentPos]? = some (some uri) then remote.eraseIdx currentPos else remote

/-- The remote collection after executing the whole plan with every
operation succeeding and no concurrent edits. -/
def executePlan (tracks : List (Option Track)) : List (Option String) :=
  (planOperations tracks).1.foldl applyPlannedOp (initialSimulation tracks)

/-- Number of tracks the execution loop counts as removed when every
planned operation succeeds (`removed_count`, lines 405 and 453). -/
def removedCount (ops : List PlannedOp) : Nat :=
  ops.foldl (fun n op =>
    match op with
    | .removeAllReadd _ group _ _ => n + group.length
    | .removeSpecific _ _ _ _ => n + 1) 0

/-! ## Execution loop with the optimistic concurrency guard -/

/-- What the remote service presents at the `i`-th loop iteration:
the version token fetched just before the mutation (line 368), the
token fetched just after it (line 460), and whether executing the
operation raises. -/
structure ExecObservation where
  observedToken : String
  postToken : String
  succeeds : Bool
  deriving DecidableEq

/-- The execution loop of lines 365-478.  Before each operation the
current version token is fetched and compared with the expected one; on
mismatch the loop breaks, leaving all remaining operations unattempted
and recording no errors for them.  On a successful operation the
expected token is refreshed from the remote; on a raised operation an
error record (its index) is appended and the loop continues with the
stale expected token, since the refresh at lines 459-461 is skipped.
Returns (executed, skipped, error indices). -/
def runGuardedOps : List PlannedOp → (Nat → ExecObservation) → Nat → String →
    List PlannedOp × List PlannedOp × List Nat
  | [], _, _, _ => ([], [], [])
  | op :: rest, obs, i, expected =>
    let o := obs i
    if o.observedToken ≠ expected then
      ([], op :: rest, [])
    else if o.succeeds then
      let next := runGuardedOps rest obs (i + 1) o.postToken
      (op :: next.1, next.2.1, next.2.2)
    else
      let next := runGuardedOps rest obs (i + 1) expected
      (next.1, next.2.1, i :: next.2.2)

/-- The expected version token before the `n`-th operation when all
earlier operations succeeded: the initial token for `n = 0`, afterwards
the token captured right after the previous mutation. -/
def chainedToken (obs : Nat → ExecObservation) (init : String) : Nat → String
  | 0 => init
  | n + 1 => (obs n).postToken

/-! ## Dry-run report (`remove_duplicates_from_playlist.py` lines 229-267) -/

/-- The result dictionary fields the claims are about. -/
structure DedupReport where
  totalTracks : Nat
  uniqueTracks : Nat
  duplicatesFound : Nat
  tracksRemoved : Nat
  duplicateGroupsFound : List (String × List TrackInfo)
  plannedRemovals : List TrackInfo
  uniqueRemovalsPlanned : List TrackInfo
  identicalGroupsPlanned : List (String × List TrackInfo)
  dryRun : Bool
  deriving DecidableEq

/-- Embedding of `remove_duplicates_from_playlist` after the snapshot
has been fetched: the analysis followed either by the dry-run return
(lines 229-267, no mutations issued, `tracks_removed: 0`) or by the
planned execution.  The second component is the list of mutation
operations the call sends to the remote service. -/
def removeDuplicates (tracks : List (Option Track)) (dryRun : Bool) :
    DedupReport × List PlannedOp :=
  if dryRun then
    ({ totalTracks := tracks.length
       uniqueTracks := (trackBuckets tracks).length
       duplicatesFound := (duplicateGroups tracks).length
       tracksRemoved := 0
       duplicateGroupsFound := duplicateGroups tracks
       plannedRemovals := removalCandidates tracks
       uniqueRemovalsPlanned := sortedUniqueRemovals tracks
       identicalGroupsPlanned := identicalURIGroups tracks
       dryRun := true }, [])
  else
    ({ totalTracks := tracks.length
       uniqueTracks := (trackBuckets tracks).length
       duplicatesFound := (duplicateGroups tracks).length
       tracksRemoved := removedCount (planOperations tracks).1
       duplicateGroupsFound := duplicateGroups tracks
       plannedRemovals := removalCandidates tracks
       uniqueRemovalsPlanned := sortedUniqueRemovals tracks
       identicalGroupsPlanned := identicalURIGroups tracks
       dryRun := false }, (planOperations tracks).1)

/-! ## Sort planner (`sort_playlist_by_release_date.py`, `batch_sort_playlist`) -/

/-- The track fields the batch sort reads: raw release date and URI. -/
structure RTrack where
  releaseDate : String
  uri : String
  deriving DecidableEq

/-- Date-precision normalization (lines 131-135): year-only dates are
padded with `-01-01`, year-month dates with `-01`. -/
def normalizeReleaseDate (d : String) : String :=
  if d.length = 4 then d ++ "-01-01"
  else if d.length = 7 then d ++ "-01"
  else d

/-- The `track_data` list (lines 124-137): items with a track and an
album, with normalized release dates, in snapshot order. -/
def batchTrackData (tracks : List (Option RTrack)) : List RTrack :=
  tracks.filterMap (fun ot =>
    ot.map (fun t => { t with releaseDate := normalizeReleaseDate t.releaseDate }))

/-- Comparison used by the sort: descending on the date string for
newest-first (`reverse=True`), ascending otherwise.  Ties compare true
both ways, so a stable sort keeps their original order, like the Python
`sorted`. -/
def dateLE (newestFirst : Bool) (a b : String) : Bool :=
  if newestFirst then pyStrLE b a else pyStrLE a b

/-- Sort key of the `i`-th `track_data` entry. -/
def sortKeyAt (td : List RTrack) (i : Nat) : String :=
  (td.getD i ⟨"", ""⟩).releaseDate

/-- The `sorted_indices` list (lines 140-142): indices into
`track_data` stably sorted by release date. -/
def sortedIndices (td : List RTrack) (newestFirst : Bool) : List Nat :=
  pySorted (fun i j => dateLE newestFirst (sortKeyAt td i) (sortKeyAt td j))
    (List.range td.length)

/-- The move-building loop (lines 144-154): walk the target positions
left to right; when the next sorted element is not already in place,
emit a move from its current simulated position and update
`current_positions` by the same pop-and-insert. -/
def genMovesAux : List Nat → Nat → List Nat → List (Nat × Nat) × List Nat
  | [], _, cp => ([], cp)
  | s :: rest, t, cp =>
    let c := cp.indexOf s
    if c = t then genMovesAux rest (t + 1) cp
    else
      let item := cp.getD c 0
      let cp' := (cp.eraseIdx c).insertIdx t item
      let next := genMovesAux rest (t + 1) cp'
      ((c, t) :: next.1, next.2)

/-- The move list `batch_sort_playlist` emits for a snapshot. -/
def batchMoves (tracks : List (Option RTrack)) (newestFirst : Bool) : List (Nat × Nat) :=
  let td := batchTrackData tracks
  (genMovesAux (sortedIndices td newestFirst) 0 (List.range td.length)).1

/-- Semantics of one emitted single-item move `(from, to)` on an
ordered list: remove the item at `from` and re-insert it before
position `to` (out-of-range moves leave the list unchanged; the
planner never emits them). -/
def applyMove {α : Type} (l : List α) (m : Nat × Nat) : List α :=
  match l[m.1]? with
  | some x => (l.eraseIdx m.1).insertIdx m.2 x
  | none => l

/-- Apply the emitted moves in emitted order. -/
def applyMoves {α : Type} (moves : List (Nat × Nat)) (l : List α) : List α :=
  moves.foldl applyMove l

/-- Comparison `dateLE` lifted to the track records themselves. -/
def rtrackLE (newestFirst : Bool) (a b : RTrack) : Bool :=
  dateLE newestFirst a.releaseDate b.releaseDate

/-! ## Concrete snapshots used as test inputs -/

/-- Snapshot with one duplicate group of three occurrences, in which
the keeper (position 0) has URI `w` while both removal candidates share
URI `u`.  All three items have the same title and artist, hence the
same dedup key. -/
def mixedGroupTracks : List (Option Track) :=
  [some { name := "Song X", artists := ["A"], uri := "w" },
   some { name := "Song X", artists := ["A"], uri := "u" },
   some { name := "Song X", artists := ["A"], uri := "u" }]

/-- Snapshot with one duplicate pair sharing a single URI `v`. -/
def sharedPairTracks : List (Option Track) :=
  [some { name := "Song Y", artists := ["B"], uri := "v" },
   some { name := "Song Y", artists := ["B"], uri := "v" }]

/-- Snapshot with a duplicate pair of globally unique URIs, used as a
witness input. -/
def plainPairTracks : List (Option Track) :=
  [some { name := "Song Z", artists := ["C"], uri := "p" },
   some { name := "Song Z", artists := ["C"], uri := "q" },
   some { name := "Other", artists := ["C"], uri := "r" }]

/-! ## General helper lemmas -/

/-- An in-range insertion is a take/cons/drop splice. -/
theorem insertIdx_eq_take_cons_drop {α : Type} (u : α) :
    ∀ (c : Nat) (l : List α), c ≤ l.length →
      l.insertIdx c u = l.take c ++ u :: l.drop c
  | 0, l, _ => by simp [List.insertIdx_zero]
  | c + 1, [], h => by simp at h
  | c + 1, a :: l, h => by
    have ih := insertIdx_eq_take_cons_drop u c l (by simpa using h)
    simp [List.insertIdx_succ_cons, ih]

/-! ## Properties of the stable sort model -/

/-- Insertion produces a permutation of consing. -/
theorem orderedInsertB_perm {α : Type} (le : α → α → Bool) (a : α) :
    ∀ (l : List α), List.Perm (orderedInsertB le a l) (a :: l)
  | [] => by simp [orderedInsertB]
  | b :: l => by
    rw [orderedInsertB]
    split
    · exact List.Perm.refl _
    · exact ((orderedInsertB_perm le a l).cons b).trans (List.Perm.swap a b l)

/-- The stable sort is a permutation of its input. -/
theorem pySorted_perm {α : Type} (le : α → α → Bool) :
    ∀ (l : List α), List.Perm (pySorted le l) l
  | [] => by simp [pySorted]
  | a :: l => by
    rw [pySorted]
    exact (orderedInsertB_perm le a (pySorted le l)).trans ((pySorted_perm le l).cons a)

/-- Inserting into a sorted list keeps it sorted, for a transitive and
total comparison. -/
theorem pairwise_orderedInsertB {α : Type} (le : α → α → Bool)
    (htrans : ∀ a b c, le a b = true → le b c = true → le a c = true)
    (htot : ∀ a b, le a b = true ∨ le b a = true) (a : α) :
    ∀ (l : List α), l.Pairwise (fun x y => le x y = true) →
      (orderedInsertB le a l).Pairwise (fun x y => le x y = true)
  | [], _ => by simp [orderedInsertB]
  | b :: l, h => by
    rw [orderedInsertB]
    split
    · rename_i hab
      refine List.Pairwise.cons ?_ h
      intro x hx
      rcases List.mem_cons.mp hx with rfl | hxl
      · exact hab
      · exact htrans a b x hab ((List.pairwise_cons.mp h).1 x hxl)
    · rename_i hab
      have hba : le b a = true := by
        rcases htot a b with hh | hh
        · exact absurd hh hab
        · exact hh
      refine List.Pairwise.cons ?_
        (pairwise_orderedInsertB le htrans htot a l (List.pairwise_cons.mp h).2)
      intro x hx
      have hx2 : x ∈ a :: l := (orderedInsertB_perm le a l).subset hx
      rcases List.mem_cons.mp hx2 with rfl | hxl
      · exact hba
      · exact (List.pairwise_cons.mp h).1 x hxl

/-- The stable sort sorts, for a transitive and total comparison. -/
theorem pySorted_pairwise {α : Type} (le : α → α → Bool)
    (htrans : ∀ a b c, le a b = true → le b c = true → le a c = true)
    (htot : ∀ a b, le a b = true ∨ le b a = true) :
    ∀ (l : List α), (pySorted le l).Pairwise (fun x y => le x y = true)
  | [] => by simp [pySorted]
  | a :: l => by
    rw [pySorted]
    exact pairwise_orderedInsertB le htrans htot a (pySorted le l)
      (pySorted_pairwise le htrans htot l)

/-- Sorting an already sorted list changes nothing. -/
theorem pySorted_of_pairwise {α : Type} (le : α → α → Bool) :
    ∀ (l : List α), l.Pairwise (fun x y => le x y = true) → pySorted le l = l
  | [], _ => rfl
  | a :: l, h => by
    rw [pySorted, pySorted_of_pairwise le l (List.pairwise_cons.mp h).2]
    match l, h with
    | [], _ => rfl
    | b :: l2, h =>
      rw [orderedInsertB, if_pos ((List.pairwise_cons.mp h).1 b (List.mem_cons_self b l2))]

/-- Insertion commutes with mapping along a comparison-preserving
function. -/
theorem orderedInsertB_map {α β : Type} (le : α → α → Bool) (le2 : β → β → Bool)
    (f : α → β) (hf : ∀ x y, le x y = le2 (f x) (f y)) (a : α) :
    ∀ (l : List α), (orderedInsertB le a l).map f = orderedInsertB le2 (f a) (l.map f)
  | [] => by simp [orderedInsertB]
  | b :: l => by
    rw [orderedInsertB, List.map_cons, orderedInsertB, ← hf a b]
    split
    · simp
    · simp [orderedInsertB_map le le2 f hf a l]

/-- The stable sort commutes with mapping along a
comparison-preserving function. -/
theorem pySorted_map {α β : Type} (le : α → α → Bool) (le2 : β → β → Bool)
    (f : α → β) (hf : ∀ x y, le x y = le2 (f x) (f y)) :
    ∀ (l : List α), (pySorted le l).map f = pySorted le2 (l.map f)
  | [] => by simp [pySorted]
  | a :: l => by
    rw [pySorted, List.map_cons, pySorted, ← pySorted_map le le2 f hf l]
    exact orderedInsertB_map le le2 f hf a (pySorted le l)

/-! ## Properties of the ordered-dict model -/

/-- Looking up the key just appended to. -/
theorem lookupA_assocAdd_self {β : Type} (k : String) (v : β) :
    ∀ (m : List (String × List β)), lookupA (assocAdd m k v) k = lookupA m k ++ [v]
  | [] => by simp [assocAdd, lookupA]
  | (k2, vs) :: rest => by
    rw [assocAdd]
    split
    · rename_i he
      simp [lookupA, he]
    · rename_i he
      have : k2 ≠ k := he
      simp [lookupA, this, lookupA_assocAdd_self k v rest]

/-- Looking up a different key than the one appended to. -/
theorem lookupA_assocAdd_ne {β : Type} (k : String) (v : β) (k2 : String) (hne : k2 ≠ k) :
    ∀ (m : List (String × List β)), lookupA (assocAdd m k v) k2 = lookupA m k2
  | [] => by simp [assocAdd, lookupA, Ne.symm hne]
  | (k3, vs) :: rest => by
    rw [assocAdd]
    split
    · rename_i he
      subst he
      simp [lookupA, Ne.symm hne]
    · by_cases h3 : k3 = k2 <;>
        simp [lookupA, h3, lookupA_assocAdd_ne k v k2 hne rest]

/-- Appending only ever adds the new key, at the end. -/
theorem assocAdd_map_fst {β : Type} (k : String) (v : β) :
    ∀ (m : List (String × List β)),
      (assocAdd m k v).map (fun kv => kv.1) =
        if k ∈ m.map (fun kv => kv.1) then m.map (fun kv => kv.1)
        else m.map (fun kv => kv.1) ++ [k]
  | [] => by simp [assocAdd]
  | (k2, vs) :: rest => by
    rw [assocAdd]
    split
    · rename_i he
      subst he
      simp
    · rename_i he
      have hne : k ≠ k2 := fun hh => he hh.symm
      by_cases hmem : k ∈ rest.map (fun kv => kv.1) <;>
        simp [assocAdd_map_fst k v rest, hmem, hne]

/-- Appending preserves distinctness of the keys. -/
theorem assocAdd_keys_nodup {β : Type} (k : String) (v : β)
    (m : List (String × List β)) (h : (m.map (fun kv => kv.1)).Nodup) :
    ((assocAdd m k v).map (fun kv => kv.1)).Nodup := by
  rw [assocAdd_map_fst]
  split
  · exact h
  · rename_i hmem
    simp [List.nodup_append, h, hmem]

/-- Folding `assocAdd` over a list: the bucket of each key collects exactly
the values of the elements with that key, in order, after whatever the
accumulator already held. -/
theorem foldl_assocAdd_lookup {α β : Type} (key : α → String) (val : α → β) (k : String) :
    ∀ (l : List α) (m : List (String × List β)),
      lookupA (l.foldl (fun m x => assocAdd m (key x) (val x)) m) k =
        lookupA m k ++ (l.filter (fun x => decide (key x = k))).map val
  | [], m => by simp
  | x :: l, m => by
    rw [List.foldl_cons, foldl_assocAdd_lookup key val k l]
    by_cases he : key x = k
    · rw [List.filter_cons_of_pos (by simp [he]), ← he, lookupA_assocAdd_self]
      simp
    · rw [List.filter_cons_of_neg (by simp [he]), lookupA_assocAdd_ne (key x) (val x) k
        (fun hh => he hh.symm)]

/-- Folding `assocAdd` keeps the keys distinct. -/
theorem foldl_assocAdd_keys_nodup {α β : Type} (key : α → String) (val : α → β) :
    ∀ (l : List α) (m : List (String × List β)), (m.map (fun kv => kv.1)).Nodup →
      (((l.foldl (fun m x => assocAdd m (key x) (val x)) m)).map (fun kv => kv.1)).Nodup
  | [], _, h => h
  | x :: l, m, h =>
    foldl_assocAdd_keys_nodup key val l _ (assocAdd_keys_nodup (key x) (val x) m h)

/-- The bucket of `k` in a grouped list is the filtered, mapped input. -/
theorem buildAssoc_lookupA {α β : Type} (l : List α) (key : α → String) (val : α → β)
    (k : String) :
    lookupA (buildAssoc l key val) k = (l.filter (fun x => decide (key x = k))).map val := by
  rw [buildAssoc, foldl_assocAdd_lookup]
  simp [lookupA]

/-- Keys of a grouped list are distinct. -/
theorem buildAssoc_keys_nodup {α β : Type} (l : List α) (key : α → String) (val : α → β) :
    ((buildAssoc l key val).map (fun kv => kv.1)).Nodup := by
  rw [buildAssoc]
  exact foldl_assocAdd_keys_nodup key val l [] (by simp)

/-- With distinct keys, membership determines the lookup. -/
theorem lookupA_eq_of_mem {β : Type} :
    ∀ (m : List (String × List β)) (k : String) (vs : List β),
      (m.map (fun kv => kv.1)).Nodup → (k, vs) ∈ m → lookupA m k = vs
  | [], k, vs, _, h => by simp at h
  | (k2, vs2) :: rest, k, vs, hnd, h => by
    rcases List.mem_cons.mp h with heq | hmem
    · injection heq with h1 h2
      subst h1
      subst h2
      simp [lookupA]
    · have hk : k2 ≠ k := by
        intro he
        subst he
        have hmm : k2 ∈ rest.map (fun kv => kv.1) :=
          List.mem_map.mpr ⟨(k2, vs), hmem, rfl⟩
        exact (List.nodup_cons.mp (by simpa using hnd)).1 hmm
      rw [show lookupA ((k2, vs2) :: rest) k = if k2 = k then vs2 else lookupA rest k
        from rfl, if_neg hk]
      exact lookupA_eq_of_mem rest k vs (List.nodup_cons.mp (by simpa using hnd)).2 hmem

/-- Every bucket of a grouped list is the filtered, mapped input. -/
theorem buildAssoc_mem_eq {α β : Type} (l : List α) (key : α → String) (val : α → β)
    (k : String) (vs : List β) (h : (k, vs) ∈ buildAssoc l key val) :
    vs = (l.filter (fun x => decide (key x = k))).map val := by
  rw [← buildAssoc_lookupA l key val k]
  exact (lookupA_eq_of_mem _ k vs (buildAssoc_keys_nodup l key val) h).symm

/-! ## Properties of the dedup scan -/

/-- Scan records carry positions at or after the running index. -/
theorem scanInfosFrom_position_le :
    ∀ (tracks : List (Option Track)) (i : Nat) (r : TrackInfo),
      r ∈ scanInfosFrom tracks i → i ≤ r.position
  | [], i, r, h => by simp [scanInfosFrom] at h
  | none :: rest, i, r, h => by
    have := scanInfosFrom_position_le rest (i + 1) r (by simpa [scanInfosFrom] using h)
    omega
  | some t :: rest, i, r, h => by
    rw [scanInfosFrom] at h
    split at h
    · rcases List.mem_cons.mp h with rfl | hm
      · exact Nat.le_refl _
      · have := scanInfosFrom_position_le rest (i + 1) r hm
        omega
    · have := scanInfosFrom_position_le rest (i + 1) r h
      omega

/-- Scan positions are strictly increasing. -/
theorem scanInfosFrom_position_pairwise :
    ∀ (tracks : List (Option Track)) (i : Nat),
      (scanInfosFrom tracks i).Pairwise (fun a b => a.position < b.position)
  | [], i => by simp [scanInfosFrom]
  | none :: rest, i => scanInfosFrom_position_pairwise rest (i + 1)
  | some t :: rest, i => by
    rw [scanInfosFrom]
    split
    · refine List.Pairwise.cons ?_ (scanInfosFrom_position_pairwise rest (i + 1))
      intro r hr
      have := scanInfosFrom_position_le rest (i + 1) r hr
      simp
      omega
    · exact scanInfosFrom_position_pairwise rest (i + 1)

/-- The URI of every scan record is present in the initial simulation. -/
theorem scanInfosFrom_uri_mem :
    ∀ (tracks : List (Option Track)) (i : Nat) (r : TrackInfo),
      r ∈ scanInfosFrom tracks i →
        some r.uri ∈ tracks.map (fun ot => ot.map (fun t => t.uri))
  | [], i, r, h => by simp [scanInfosFrom] at h
  | none :: rest, i, r, h => by
    have ih := scanInfosFrom_uri_mem rest (i + 1) r (by simpa [scanInfosFrom] using h)
    rw [List.map_cons]
    exact List.mem_cons.mpr (Or.inr ih)
  | some t :: rest, i, r, h => by
    rw [scanInfosFrom] at h
    split at h
    · rcases List.mem_cons.mp h with rfl | hm
      · rw [List.map_cons]
        exact List.mem_cons.mpr (Or.inl rfl)
      · have ih := scanInfosFrom_uri_mem rest (i + 1) r hm
        rw [List.map_cons]
        exact List.mem_cons.mpr (Or.inr ih)
    · have ih := scanInfosFrom_uri_mem rest (i + 1) r h
      rw [List.map_cons]
      exact List.mem_cons.mpr (Or.inr ih)

/-! ## C10: the add-at-position simulation is total and clamps -/

/-- C10: for every simulation list `p`, token `u` and integer position
`k` (negative or beyond the length included), `simulate_add_at_position`
never raises: the position is clamped to `[0, len(p)]`, the result has
length `len(p) + 1`, it is `p` with `u` spliced in at the clamped index
(so the elements of the input are all preserved in order, the input itself
being left unmodified), and the entry at the clamped index is `u`. -/
theorem simulate_add_at_position_total_and_clamped {α : Type}
    (p : List α) (u : α) (k : Int) :
    (simulateAddAtPosition p u k).length = p.length + 1 ∧
    simulateAddAtPosition p u k =
      p.take (max 0 (min k (p.length : Int))).toNat ++
        u :: p.drop (max 0 (min k (p.length : Int))).toNat ∧
    (simulateAddAtPosition p u k)[(max 0 (min k (p.length : Int))).toNat]? = some u := by
  have hcle : (max 0 (min k (p.length : Int))).toNat ≤ p.length := by omega
  have hsplice : simulateAddAtPosition p u k =
      p.take (max 0 (min k (p.length : Int))).toNat ++
        u :: p.drop (max 0 (min k (p.length : Int))).toNat :=
    insertIdx_eq_take_cons_drop u _ p hcle
  refine ⟨?_, hsplice, ?_⟩
  · rw [hsplice]
    simp only [List.length_append, List.length_take, List.length_cons, List.length_drop]
    omega
  · rw [hsplice, List.getElem?_append_right (by simp [List.length_take])]
    simp [List.length_take, Nat.min_eq_left hcle]

/-! ## C6: Retry-After handling -/

/-- C6 fails as stated: with the default configuration
(`base_delay = 1`, `max_delay = 60`, jitter off) a parsed `Retry-After`
of 120 seconds is not used verbatim — the computed delay is the cap 60,
not 120. -/
theorem retry_after_not_verbatim :
    calculateDelay 1 60 false 0 0 (some 120) = 60 ∧ (60 : ℚ) ≠ 120 := by
  constructor
  · show max 0 (if true = true then min (if (120 : Int) ≠ 0 then ((120 : Int) : ℚ)
      else 1 * 2 ^ 0) 60 else min (if (120 : Int) ≠ 0 then ((120 : Int) : ℚ)
      else 1 * 2 ^ 0) 60 + 0) = 60
    norm_num
  · norm_num

/-- C6 (amended): a `Retry-After` value that parses as a nonzero
integer is used as the delay only after capping at `max_delay` and
flooring at zero (before optional jitter); a zero value, an absent
header or an unparsable header fall back to the exponential-backoff
formula, likewise capped. -/
theorem retry_after_capped_spec (base maxd : ℚ) (attempt : Nat) (r : Int) (h : String) :
    (r ≠ 0 → calculateDelay base maxd false 0 attempt (some r) =
      max 0 (min (r : ℚ) maxd)) ∧
    calculateDelay base maxd false 0 attempt none =
      max 0 (min (base * 2 ^ attempt) maxd) ∧
    calculateDelay base maxd false 0 attempt (some 0) =
      max 0 (min (base * 2 ^ attempt) maxd) ∧
    (pyParseInt h = none → (handleSpotifyException 429 (some h)).2 = none) ∧
    (h ≠ "" → (handleSpotifyException 429 (some h)).2 = pyParseInt h) := by
  refine ⟨?_, ?_, ?_, ?_, ?_⟩
  · intro hr
    simp [calculateDelay, hr]
  · simp [calculateDelay]
  · simp [calculateDelay]
  · intro hp
    by_cases he : h = "" <;> simp [handleSpotifyException, he, hp]
  · intro hne
    simp [handleSpotifyException, hne]

/-- Witness for `retry_after_capped_spec` at concrete inputs. -/
theorem retry_after_capped_spec_witness :
    calculateDelay 1 60 false 0 2 (some 120) = max 0 (min (120 : ℚ) 60) ∧
    (handleSpotifyException 429 (some "abc")).2 = none :=
  ⟨(retry_after_capped_spec 1 60 2 120 "abc").1 (by norm_num),
   (retry_after_capped_spec 1 60 2 120 "abc").2.2.2.1 (by decide)⟩

/-! ## C7: retry classification -/

/-- C7 fails as stated: HTTP 501 is a server error (5xx) but is not
classified as retryable — the source retries only 500, 502, 503 and
504 — so `execute_with_retry` raises it on the very first attempt. -/
theorem status_501_not_retried :
    (500 : Int) ≤ 501 ∧ (501 : Int) < 600 ∧
    handleSpotifyException 501 none = (false, none) ∧
    executeWithRetry (fun _ => CallOutcome.spotifyError (α := Unit) 501 none) 5 =
      RetryResult.raisedSpotify 501 none 1 := by
  refine ⟨by norm_num, by norm_num, by decide, by decide⟩

/-- C7 (amended): a failure is classified retryable exactly when it is
a 429 or one of the server errors 500, 502, 503, 504; every other
Spotify error (the 4xx client errors other than 429, but also 501 and
505-599) and every non-Spotify exception is raised to the caller on the
first attempt, unretried. -/
theorem retry_classification {α : Type} (st : Int) (hd : Option String)
    (calls : Nat → CallOutcome α) (tag : String) (maxRetries : Nat) :
    ((handleSpotifyException st hd).1 = true ↔
      st = 429 ∨ st = 500 ∨ st = 502 ∨ st = 503 ∨ st = 504) ∧
    (calls 0 = CallOutcome.otherError tag →
      executeWithRetry calls maxRetries = RetryResult.raisedOther tag 1) ∧
    ((handleSpotifyException st hd).1 = false →
      calls 0 = CallOutcome.spotifyError st hd →
      executeWithRetry calls maxRetries = RetryResult.raisedSpotify st hd 1) := by
  refine ⟨?_, ?_, ?_⟩
  · by_cases h1 : st = 429
    · simp [handleSpotifyException, h1]
    · by_cases h2 : st = 500 ∨ st = 502 ∨ st = 503 ∨ st = 504
      · have hh : (handleSpotifyException st hd).1 = true := by
          simp [handleSpotifyException, if_neg h1, if_pos h2]
        simp only [hh, true_iff]
        tauto
      · have hh : (handleSpotifyException st hd).1 = false := by
          simp [handleSpotifyException, if_neg h1, if_neg h2]
        simp only [hh, Bool.false_eq_true, false_iff]
        tauto
  · intro h0
    simp [executeWithRetry, retryAux, h0]
  · intro hf h0
    simp [executeWithRetry, retryAux, h0, hf]

/-- Witness for `retry_classification` at concrete inputs. -/
theorem retry_classification_witness :
    executeWithRetry (fun _ => CallOutcome.otherError (α := Unit) "boom") 5 =
      RetryResult.raisedOther "boom" 1 ∧
    executeWithRetry (fun _ => CallOutcome.spotifyError (α := Unit) 404 none) 5 =
      RetryResult.raisedSpotify 404 none 1 :=
  ⟨(retry_classification 404 none (fun _ => CallOutcome.otherError (α := Unit) "boom")
      "boom" 5).2.1 rfl,
   (retry_classification 404 none (fun _ => CallOutcome.spotifyError (α := Unit) 404 none)
      "boom" 5).2.2 (by decide) rfl⟩

/-! ## C8: the retry bound -/

/-- Helper: the loop makes at most `attempt + fuel` calls in total. -/
theorem retryAux_attempts_le {α : Type} (calls : Nat → CallOutcome α) (maxRetries : Nat) :
    ∀ (fuel attempt : Nat), (retryAux calls maxRetries attempt fuel).attempts ≤ attempt + fuel
  | 0, attempt => by simp [retryAux, RetryResult.attempts]
  | fuel + 1, attempt => by
    rw [retryAux]
    cases hca : calls attempt with
    | success v =>
      simp only [RetryResult.attempts]
      omega
    | spotifyError st hd =>
      dsimp only
      split
      · simp only [RetryResult.attempts]
        omega
      · have := retryAux_attempts_le calls maxRetries fuel (attempt + 1)
        omega
    | otherError tag =>
      simp only [RetryResult.attempts]
      omega

/-- Helper: when every remaining call fails with a retryable Spotify
error, the loop raises the error of the final attempt after using all
its fuel. -/
theorem retryAux_exhausts {α : Type} (calls : Nat → CallOutcome α) (maxRetries : Nat)
    (st : Nat → Int) (hd : Nat → Option String)
    (hc : ∀ i, i ≤ maxRetries → calls i = CallOutcome.spotifyError (st i) (hd i))
    (hr : ∀ i, i ≤ maxRetries → (handleSpotifyException (st i) (hd i)).1 = true) :
    ∀ (fuel attempt : Nat), attempt + fuel = maxRetries + 1 → 0 < fuel →
      retryAux calls maxRetries attempt fuel =
        RetryResult.raisedSpotify (st maxRetries) (hd maxRetries) (maxRetries + 1)
  | 0, attempt, hsum, hpos => by omega
  | fuel + 1, attempt, hsum, _ => by
    have hle : attempt ≤ maxRetries := by omega
    rw [retryAux, hc attempt hle]
    dsimp only
    by_cases hend : maxRetries ≤ attempt
    · have hea : attempt = maxRetries := by omega
      rw [if_pos (Or.inr hend), hea]
    · rw [if_neg (by simp [hr attempt hle]; omega)]
      exact retryAux_exhausts calls maxRetries st hd hc hr fuel (attempt + 1)
        (by omega) (by omega)

/-- C8: `execute_with_retry` makes at most `max_retries + 1` calls in
total (at most `max_retries` retries beyond the first attempt), and
when every attempt fails with a retryable error the error of the last
attempt is the one raised to the caller, unchanged in kind. -/
theorem retry_bound_and_last_error {α : Type} (maxRetries : Nat)
    (calls : Nat → CallOutcome α) (st : Nat → Int) (hd : Nat → Option String)
    (hc : ∀ i, i ≤ maxRetries → calls i = CallOutcome.spotifyError (st i) (hd i))
    (hr : ∀ i, i ≤ maxRetries → (handleSpotifyException (st i) (hd i)).1 = true) :
    (∀ (other : Nat → CallOutcome α),
      (executeWithRetry other maxRetries).attempts ≤ maxRetries + 1) ∧
    executeWithRetry calls maxRetries =
      RetryResult.raisedSpotify (st maxRetries) (hd maxRetries) (maxRetries + 1) := by
  constructor
  · intro other
    have := retryAux_attempts_le other maxRetries (maxRetries + 1) 0
    simpa [executeWithRetry] using this
  · exact retryAux_exhausts calls maxRetries st hd hc hr (maxRetries + 1) 0 (by omega)
      (by omega)

/-- Witness for `retry_bound_and_last_error`: with `max_retries = 1`
and every call failing with a 429, exactly two calls are made and the
last 429 is raised. -/
theorem retry_bound_and_last_error_witness :
    (executeWithRetry (fun _ => CallOutcome.spotifyError (α := Unit) 429 none) 1).attempts ≤ 2 ∧
    executeWithRetry (fun _ => CallOutcome.spotifyError (α := Unit) 429 none) 1 =
      RetryResult.raisedSpotify 429 none 2 :=
  ⟨(retry_bound_and_last_error 1 (fun _ => CallOutcome.spotifyError (α := Unit) 429 none)
      (fun _ => 429) (fun _ => none) (fun _ _ => rfl) (fun _ _ => rfl)).1 _,
   (retry_bound_and_last_error 1 (fun _ => CallOutcome.spotifyError (α := Unit) 429 none)
      (fun _ => 429) (fun _ => none) (fun _ _ => rfl) (fun _ _ => rfl)).2⟩

/-! ## C9: dry-run is effect-free -/

/-- C9: a dry run issues no mutation operations at all, reports
`tracks_removed = 0`, and still returns the full planned-removal
analysis (the duplicate groups, the planned removal candidates and the
two planned removal classes). -/
theorem dry_run_effect_free (tracks : List (Option Track)) :
    (removeDuplicates tracks true).2 = [] ∧
    (removeDuplicates tracks true).1.tracksRemoved = 0 ∧
    (removeDuplicates tracks true).1.dryRun = true ∧
    (removeDuplicates tracks true).1.duplicateGroupsFound = duplicateGroups tracks ∧
    (removeDuplicates tracks true).1.plannedRemovals = removalCandidates tracks ∧
    (removeDuplicates tracks true).1.uniqueRemovalsPlanned = sortedUniqueRemovals tracks ∧
    (removeDuplicates tracks true).1.identicalGroupsPlanned = identicalURIGroups tracks := by
  simp [removeDuplicates]

/-! ## Bridging lemmas for the planner -/

/-- Every removal candidate is one of the scan records. -/
theorem removalCandidates_subset_scanInfos (tracks : List (Option Track))
    (c : TrackInfo) (hc : c ∈ removalCandidates tracks) : c ∈ scanInfos tracks := by
  rcases List.mem_flatMap.mp hc with ⟨g, hg, hct⟩
  rcases List.mem_filterMap.mp hg with ⟨kv, hkv, heq⟩
  by_cases hlen : 1 < kv.2.length
  · rw [if_pos hlen] at heq
    injection heq with heq2
    subst heq2
    have h1 : c ∈ pySorted (fun a b => decide (a.position ≤ b.position)) kv.2 :=
      (List.tail_sublist _).mem hct
    have h2 : c ∈ kv.2 :=
      (pySorted_perm (fun a b => decide (a.position ≤ b.position)) kv.2).subset h1
    have h3 := buildAssoc_mem_eq (scanInfos tracks) (fun r => r.key) id kv.1 kv.2
      (by rcases kv with ⟨k1, v1⟩; exact hkv)
    rw [h3, List.map_id] at h2
    exact List.mem_of_mem_filter h2
  · rw [if_neg hlen] at heq
    exact absurd heq (by simp)

/-- The URI-usage count of a URI is the number of scan records that
carry it. -/
theorem uriUsageCount_eq_filter_length (tracks : List (Option Track)) (u : String) :
    uriUsageCount tracks u =
      ((scanInfos tracks).filter (fun r => decide (r.uri = u))).length := by
  rw [uriUsageCount, uriUsage, buildAssoc_lookupA, List.length_map]

/-! ## C2: conservation fails on the code -/

/-- C2 is violated by the code: on the snapshot `mixedGroupTracks`
(three same-key items at positions 0, 1, 2 with URIs `w`, `u`, `u`) the
single duplicate group has size 3, so conservation demands a final
count of `3 - (3 - 1) = 1`; but the planner schedules the two shared
`u` candidates as a remove-all-and-re-add batch whose re-add restores
one `u` even though the keeper is the distinct URI `w`, and a fully
successful execution ends with 2 items — `[w, u]`, still a duplicate
pair by dedup key — while reporting 2 tracks removed. -/
theorem conservation_fails_on_mixed_group :
    mixedGroupTracks.length = 3 ∧
    (duplicateGroups mixedGroupTracks).map (fun g => g.2.length - 1) = [2] ∧
    executePlan mixedGroupTracks = [some "w", some "u"] ∧
    (executePlan mixedGroupTracks).length = 2 ∧
    (planOperations mixedGroupTracks).2.length = 2 ∧
    (removeDuplicates mixedGroupTracks false).1.tracksRemoved = 2 := by
  decide

/-! ## C3: the frequency check is global, not candidate-local -/

/-- C3 fails as stated: on `sharedPairTracks` the only removal
candidate (position 1, URI `v`) has a URI occurring exactly once among
the candidates-to-remove, so the claim demands a direct
position-specific removal; the planner instead classifies it by the
frequency of the URI in the whole snapshot (2, the keeper included) and
schedules a remove-all-and-re-add batch, leaving the unique-URI list
empty. -/
theorem classification_not_candidate_local :
    (removalCandidates sharedPairTracks).map
      (fun r => (r.position, r.uri)) = [(1, "v")] ∧
    ((removalCandidates sharedPairTracks).filter
      (fun r => decide (r.uri = "v"))).length = 1 ∧
    uniqueURIRemovals sharedPairTracks = [] ∧
    (planOperations sharedPairTracks).1 =
      [PlannedOp.removeAllReadd "v" [⟨1, "v", "song y|||b"⟩] [0, 1] 0] := by
  decide

/-- C3 (amended): the planner classifies each removal candidate
individually by the frequency of its URI across the whole scanned snapshot
(keeper and non-candidate occurrences included): the candidate goes to
the direct position-specific removal list exactly when that global
count is 1, and otherwise into the remove-all-and-re-add bucket of its
URI. -/
theorem classification_by_global_uri_frequency (tracks : List (Option Track))
    (c : TrackInfo) (hc : c ∈ removalCandidates tracks) :
    uriUsageCount tracks c.uri =
      ((scanInfos tracks).filter (fun r => decide (r.uri = c.uri))).length ∧
    (c ∈ uniqueURIRemovals tracks ↔ uriUsageCount tracks c.uri = 1) ∧
    (1 < uriUsageCount tracks c.uri →
      c ∈ lookupA (identicalURIGroups tracks) c.uri) := by
  have hsc : c ∈ scanInfos tracks := removalCandidates_subset_scanInfos tracks c hc
  have hpos : 0 < uriUsageCount tracks c.uri := by
    rw [uriUsageCount_eq_filter_length]
    exact List.length_pos_of_mem (List.mem_filter.mpr ⟨hsc, by simp⟩)
  refine ⟨uriUsageCount_eq_filter_length tracks c.uri, ?_, ?_⟩
  · rw [uniqueURIRemovals, List.mem_filter]
    constructor
    · rintro ⟨-, hb⟩
      simp only [isSharedURI, Bool.not_eq_eq_eq_not, Bool.not_true,
        decide_eq_false_iff_not, not_lt] at hb
      omega
    · intro h1
      refine ⟨hc, ?_⟩
      simp only [isSharedURI, Bool.not_eq_eq_eq_not, Bool.not_true,
        decide_eq_false_iff_not, not_lt]
      omega
  · intro hgt
    rw [identicalURIGroups, buildAssoc_lookupA]
    refine List.mem_map.mpr ⟨c, ?_, rfl⟩
    refine List.mem_filter.mpr ⟨List.mem_filter.mpr ⟨hc, ?_⟩, by simp⟩
    simp [isSharedURI, hgt]

/-- Witness for `classification_by_global_uri_frequency`: on
`plainPairTracks` the candidate at position 1 (URI `q`) has global URI
count 1 and lands in the position-specific removal list. -/
theorem classification_by_global_uri_frequency_witness :
    (⟨1, "q", "song z|||c"⟩ : TrackInfo) ∈ uniqueURIRemovals plainPairTracks :=
  ((classification_by_global_uri_frequency plainPairTracks ⟨1, "q", "song z|||c"⟩
    (by decide)).2.1).mpr (by decide)

/-! ## C4: the concurrency guard aborts cleanly -/

/-- Helper: if the token observed before every operation up to some
point matches the success chain, and the next observation does not, the
loop executes exactly the matching prefix, skips the whole remaining
suffix without touching it, and records no errors.  The chain is
anchored at absolute index `i`; `chainedToken` at `i + 1` is by
definition the post-token of operation `i`, so the induction can
restart the chain after each successful step. -/
theorem runGuardedOps_abort_aux (obs : Nat → ExecObservation) (init : String) :
    ∀ (ops : List PlannedOp) (m i : Nat) (expected : String),
      expected = chainedToken obs init i →
      (∀ j, i ≤ j → j < i + m →
        (obs j).observedToken = chainedToken obs init j ∧ (obs j).succeeds = true) →
      (obs (i + m)).observedToken ≠ chainedToken obs init (i + m) →
      runGuardedOps ops obs i expected = (ops.take m, ops.drop m, [])
  | [], m, i, expected, _, _, _ => by simp [runGuardedOps]
  | op :: rest, 0, i, expected, hexp, _, hmis => by
    rw [runGuardedOps, if_pos (by rw [hexp]; simpa using hmis)]
    simp
  | op :: rest, m + 1, i, expected, hexp, hok, hmis => by
    have h0 := hok i (Nat.le_refl i) (by omega)
    rw [runGuardedOps, if_neg (by rw [hexp]; simpa using h0.1), if_pos h0.2]
    have ih := runGuardedOps_abort_aux obs init rest m (i + 1) (obs i).postToken
      rfl
      (fun j hj1 hj2 => hok j (by omega) (by omega))
      (by
        have : i + 1 + m = i + (m + 1) := by omega
        rw [this]
        exact hmis)
    rw [ih]
    simp

/-- C4: for a plan of `M` operations, if the `N-1` first operations
succeed with matching version tokens, and the token observed
immediately before the `N`-th live mutation (`1 ≤ N ≤ M`) differs from
the token captured after the `(N-1)`-th successful mutation (the
initial fetch for `N = 1`), then exactly `N - 1` mutations are
executed, the `N`-th and all later operations are never attempted and
are returned as the skipped suffix of the plan, and no error records
are produced for them. -/
theorem concurrency_abort (ops : List PlannedOp) (obs : Nat → ExecObservation)
    (init : String) (N : Nat) (h1 : 1 ≤ N) (hM : N ≤ ops.length)
    (hok : ∀ j, j < N - 1 →
      (obs j).observedToken = chainedToken obs init j ∧ (obs j).succeeds = true)
    (hmis : (obs (N - 1)).observedToken ≠ chainedToken obs init (N - 1)) :
    runGuardedOps ops obs 0 init = (ops.take (N - 1), ops.drop (N - 1), []) ∧
    (ops.take (N - 1)).length = N - 1 := by
  constructor
  · exact runGuardedOps_abort_aux obs init ops (N - 1) 0 init rfl
      (fun j hj1 hj2 => hok j (by omega)) (by simpa using hmis)
  · rw [List.length_take]
    omega

/-- Witness for `concurrency_abort`: a two-operation plan in which the
first operation succeeds and the token fetched before the second does
not match the refreshed one; the first operation is executed, the
second is skipped, and no errors are recorded. -/
theorem concurrency_abort_witness :
    runGuardedOps
        [PlannedOp.removeSpecific "a" ⟨1, "a", "k"⟩ 1 1,
         PlannedOp.removeSpecific "b" ⟨2, "b", "k"⟩ 2 2]
        (fun i => if i = 0 then ⟨"s0", "s1", true⟩ else ⟨"sX", "s2", true⟩)
        0 "s0" =
      ([PlannedOp.removeSpecific "a" ⟨1, "a", "k"⟩ 1 1],
       [PlannedOp.removeSpecific "b" ⟨2, "b", "k"⟩ 2 2], []) ∧
    ([PlannedOp.removeSpecific "a" ⟨1, "a", "k"⟩ 1 1,
      PlannedOp.removeSpecific "b" ⟨2, "b", "k"⟩ 2 2].take 1).length = 1 :=
  concurrency_abort
    [PlannedOp.removeSpecific "a" ⟨1, "a", "k"⟩ 1 1,
     PlannedOp.removeSpecific "b" ⟨2, "b", "k"⟩ 2 2]
    (fun i => if i = 0 then ⟨"s0", "s1", true⟩ else ⟨"sX", "s2", true⟩)
    "s0" 2 (by omega) (by simp)
    (fun j hj => by
      interval_cases j
      exact ⟨rfl, rfl⟩)
    (by decide)

/-! ## C1 support: counting through erasures and insertions -/

/-- Erasing an index holding `v` does not change the count of other
elements. -/
theorem count_eraseIdx_of_get {α : Type} [BEq α] [LawfulBEq α] (l : List α) (p : Nat)
    (v x : α) (hget : l[p]? = some v) (hx : x ≠ v) :
    (l.eraseIdx p).count x = l.count x := by
  rcases List.getElem?_eq_some_iff.mp hget with ⟨hp, hv⟩
  rw [List.eraseIdx_eq_take_drop_succ]
  conv_rhs => rw [← List.take_append_drop p l, List.drop_eq_getElem_cons hp]
  rw [List.count_append, List.count_append, List.count_cons, hv]
  simp [beq_iff_eq, hx]
  exact fun hh => hx hh.symm

/-- Erasing at a later index does not disturb earlier entries. -/
theorem getElem?_eraseIdx_of_lt {α : Type} (l : List α) (p q : Nat)
    (hp : p < l.length) (hq : q < p) :
    (l.eraseIdx p)[q]? = l[q]? := by
  rw [List.eraseIdx_eq_take_drop_succ,
    List.getElem?_append_left (by simp [List.length_take]; omega),
    List.getElem?_take_of_lt hq]

/-- Popping a strictly descending list of positions that all hold `v`
leaves the count of every other element unchanged. -/
theorem foldl_pyRemoveAt_count {α : Type} [BEq α] [LawfulBEq α] (v : α) :
    ∀ (ps : List Nat) (l : List α), ps.Pairwise (fun a b => b < a) →
      (∀ p ∈ ps, l[p]? = some v) → ∀ (x : α), x ≠ v →
      (ps.foldl pyRemoveAt l).count x = l.count x
  | [], l, _, _, x, _ => rfl
  | p :: ps, l, hpw, hget, x, hx => by
    have hp : p < l.length :=
      (List.getElem?_eq_some_iff.mp (hget p (List.mem_cons_self p ps))).1
    rw [List.foldl_cons, show pyRemoveAt l p = l.eraseIdx p from if_pos hp,
      foldl_pyRemoveAt_count v ps (l.eraseIdx p) (List.pairwise_cons.mp hpw).2
        (fun q hq => by
          rw [getElem?_eraseIdx_of_lt l p q hp ((List.pairwise_cons.mp hpw).1 q hq)]
          exact hget q (List.mem_cons_of_mem p hq)) x hx,
      count_eraseIdx_of_get l p v x (hget p (List.mem_cons_self p ps)) hx]

/-! ## C1 support: the position finder -/

/-- Found positions sit at or after the running index. -/
theorem findPositionsFrom_le :
    ∀ (sim : List (Option String)) (t : String) (i : Nat) (p : Nat),
      p ∈ findPositionsFrom sim t i → i ≤ p
  | [], t, i, p, h => by simp [findPositionsFrom] at h
  | x :: rest, t, i, p, h => by
    rw [findPositionsFrom] at h
    split at h
    · rcases List.mem_cons.mp h with rfl | hm
      · exact Nat.le_refl p
      · have := findPositionsFrom_le rest t (i + 1) p hm
        omega
    · have := findPositionsFrom_le rest t (i + 1) p h
      omega

/-- Found positions are strictly increasing. -/
theorem findPositionsFrom_pairwise :
    ∀ (sim : List (Option String)) (t : String) (i : Nat),
      (findPositionsFrom sim t i).Pairwise (fun a b => a < b)
  | [], t, i => by simp [findPositionsFrom]
  | x :: rest, t, i => by
    rw [findPositionsFrom]
    split
    · refine List.Pairwise.cons ?_ (findPositionsFrom_pairwise rest t (i + 1))
      intro p hp
      have := findPositionsFrom_le rest t (i + 1) p hp
      omega
    · exact findPositionsFrom_pairwise rest t (i + 1)

/-- Every found position holds the target. -/
theorem findPositionsFrom_get :
    ∀ (sim : List (Option String)) (t : String) (i : Nat) (p : Nat),
      p ∈ findPositionsFrom sim t i → sim[p - i]? = some (some t)
  | [], t, i, p, h => by simp [findPositionsFrom] at h
  | x :: rest, t, i, p, h => by
    rw [findPositionsFrom] at h
    split at h
    · rename_i hx
      rcases List.mem_cons.mp h with rfl | hm
      · simp [hx]
      · have hle := findPositionsFrom_le rest t (i + 1) p hm
        have ih := findPositionsFrom_get rest t (i + 1) p hm
        have hsub : p - i = (p - (i + 1)) + 1 := by omega
        rw [hsub, List.getElem?_cons_succ]
        exact ih
    · have hle := findPositionsFrom_le rest t (i + 1) p h
      have ih := findPositionsFrom_get rest t (i + 1) p h
      have hsub : p - i = (p - (i + 1)) + 1 := by omega
      rw [hsub, List.getElem?_cons_succ]
      exact ih

/-- The descending sort of the found positions is strictly descending
and all its entries hold the target. -/
theorem sorted_found_positions (sim : List (Option String)) (u : String) :
    (pySorted (fun a b : Nat => decide (b ≤ a)) (findCurrentPositions sim u)).Pairwise
      (fun a b => b < a) ∧
    ∀ p ∈ pySorted (fun a b : Nat => decide (b ≤ a)) (findCurrentPositions sim u),
      sim[p]? = some (some u) := by
  have hperm := pySorted_perm (fun a b : Nat => decide (b ≤ a)) (findCurrentPositions sim u)
  have hge := pySorted_pairwise (fun a b : Nat => decide (b ≤ a))
    (fun a b c hab hbc => by
      simp only [decide_eq_true_eq] at hab hbc ⊢
      omega)
    (fun a b => by
      rcases Nat.le_total b a with h | h
      · exact Or.inl (by simpa using h)
      · exact Or.inr (by simpa using h))
    (findCurrentPositions sim u)
  have hndf : (findCurrentPositions sim u).Nodup :=
    (findPositionsFrom_pairwise sim u 0).imp (fun h => Nat.ne_of_lt h)
  have hnd : (pySorted (fun a b : Nat => decide (b ≤ a))
      (findCurrentPositions sim u)).Nodup :=
    hndf.perm hperm.symm
  constructor
  · exact (hge.and hnd).imp (fun h => by
      rcases h with ⟨h1, h2⟩
      simp only [decide_eq_true_eq] at h1
      omega)
  · intro p hp
    have := findPositionsFrom_get sim u 0 p (hperm.subset hp)
    simpa using this

/-! ## C1 support: the planning folds preserve URI presence -/

/-- The remove-all-and-re-add planning loop never loses a URI that is
present in the simulation: removals of a group only delete occurrences
of that same URI, and the re-add puts one occurrence back. -/
theorem planIdenticalAux_preserves_mem :
    ∀ (groups : List (String × List TrackInfo)) (sim : List (Option String)) (u : String),
      some u ∈ sim → some u ∈ (planIdenticalAux groups sim).2
  | [], sim, u, h => h
  | (v, grp) :: rest, sim, u, h => by
    rw [planIdenticalAux]
    split
    · exact planIdenticalAux_preserves_mem rest sim u h
    · refine planIdenticalAux_preserves_mem rest _ u ?_
      have hclamp : (max 0 (min ((pyMin (findCurrentPositions sim v)) : Int)
          (((simulateRemovePositions sim (findCurrentPositions sim v)).length : Nat) : Int))).toNat ≤
          (simulateRemovePositions sim (findCurrentPositions sim v)).length := by
        omega
      rw [simulateAddAtPosition]
      by_cases huv : u = v
      · subst huv
        exact (List.mem_insertIdx hclamp).mpr (Or.inl rfl)
      · refine (List.mem_insertIdx hclamp).mpr (Or.inr ?_)
        rw [← List.count_pos_iff]
        have hspec := sorted_found_positions sim v
        rw [simulateRemovePositions,
          foldl_pyRemoveAt_count (some v) _ sim hspec.1 hspec.2 (some u) (by simp [huv])]
        exact List.count_pos_iff.mpr h

/-- The position-specific planning loop preserves every URI other than
the ones it removes. -/
theorem planUniqueAux_preserves_mem :
    ∀ (items : List TrackInfo) (sim : List (Option String)) (u : String),
      (∀ it ∈ items, it.uri ≠ u) → some u ∈ sim →
      some u ∈ (planUniqueAux items sim).2
  | [], sim, u, _, h => h
  | item :: rest, sim, u, hne, h => by
    rw [planUniqueAux]
    have hrest : ∀ it ∈ rest, it.uri ≠ u :=
      fun it hit => hne it (List.mem_cons_of_mem item hit)
    match hfind : findCurrentPositions sim item.uri with
    | [] => exact planUniqueAux_preserves_mem rest sim u hrest h
    | p :: ps =>
      refine planUniqueAux_preserves_mem rest _ u hrest ?_
      have hget : sim[p]? = some (some item.uri) := by
        have := findPositionsFrom_get sim item.uri 0 p
          (by rw [show findPositionsFrom sim item.uri 0 = findCurrentPositions sim item.uri
            from rfl, hfind]; exact List.mem_cons_self p ps)
        simpa using this
      rw [← List.count_pos_iff]
      rw [simulateRemovePositions, show pySorted (fun a b : Nat => decide (b ≤ a)) [p] = [p]
        from rfl, List.foldl_cons, List.foldl_nil,
        show pyRemoveAt sim p = sim.eraseIdx p
          from if_pos (List.getElem?_eq_some_iff.mp hget).1,
        count_eraseIdx_of_get sim p (some item.uri) (some u) hget
          (by simpa using Ne.symm (hne item (List.mem_cons_self item rest)))]
      exact List.count_pos_iff.mpr h

/-- Every operation planned by the remove-all loop is a
remove-all-and-re-add operation. -/
theorem planIdenticalAux_ops_shape :
    ∀ (groups : List (String × List TrackInfo)) (sim : List (Option String))
      (v : String) (it : TrackInfo) (p o : Nat),
      PlannedOp.removeSpecific v it p o ∈ (planIdenticalAux groups sim).1 → False
  | [], sim, v, it, p, o, h => by simp [planIdenticalAux] at h
  | (w, grp) :: rest, sim, v, it, p, o, h => by
    rw [planIdenticalAux] at h
    split at h
    · exact planIdenticalAux_ops_shape rest sim v it p o h
    · rcases List.mem_cons.mp h with heq | hm
      · exact PlannedOp.noConfusion heq
      · exact planIdenticalAux_ops_shape rest _ v it p o hm

/-- Every position-specific operation planned by the unique loop
carries the URI of one of its input items. -/
theorem planUniqueAux_ops_uri :
    ∀ (items : List TrackInfo) (sim : List (Option String))
      (v : String) (it : TrackInfo) (p o : Nat),
      PlannedOp.removeSpecific v it p o ∈ (planUniqueAux items sim).1 →
      ∃ it2, it2 ∈ items ∧ v = it2.uri
  | [], sim, v, it, p, o, h => by simp [planUniqueAux] at h
  | item :: rest, sim, v, it, p, o, h => by
    rw [planUniqueAux] at h
    match hfind : findCurrentPositions sim item.uri with
    | [] =>
      rw [hfind] at h
      rcases planUniqueAux_ops_uri rest sim v it p o h with ⟨it2, h1, h2⟩
      exact ⟨it2, List.mem_cons_of_mem item h1, h2⟩
    | q :: qs =>
      rw [hfind] at h
      rcases List.mem_cons.mp h with heq | hm
      · injection heq with hv _
        exact ⟨item, List.mem_cons_self item rest, hv⟩
      · rcases planUniqueAux_ops_uri rest _ v it p o hm with ⟨it2, h1, h2⟩
        exact ⟨it2, List.mem_cons_of_mem item h1, h2⟩

/-- Executing the plan against the remote collection preserves every
URI that no position-specific operation targets: a
remove-all-and-re-add batch deletes only occurrences of its own URI
and re-inserts it, and a position-specific removal deletes one
verified occurrence of its target URI. -/
theorem foldl_applyPlannedOp_mem (u : String) :
    ∀ (ops : List PlannedOp) (remote : List (Option String)),
      (∀ v it p o, PlannedOp.removeSpecific v it p o ∈ ops → v ≠ u) →
      some u ∈ remote → some u ∈ ops.foldl applyPlannedOp remote
  | [], remote, _, h => h
  | op :: ops, remote, hops, h => by
    rw [List.foldl_cons]
    refine foldl_applyPlannedOp_mem u ops _
      (fun v it p o hm => hops v it p o (List.mem_cons_of_mem op hm)) ?_
    match op with
    | .removeAllReadd v grp ps t =>
      rw [applyPlannedOp]
      have hclamp : min t (remote.filter (fun x => decide (x ≠ some v))).length ≤
          (remote.filter (fun x => decide (x ≠ some v))).length :=
        Nat.min_le_right _ _
      by_cases huv : u = v
      · subst huv
        exact (List.mem_insertIdx hclamp).mpr (Or.inl rfl)
      · refine (List.mem_insertIdx hclamp).mpr (Or.inr ?_)
        exact List.mem_filter.mpr ⟨h, by simp [huv]⟩
    | .removeSpecific v itm p o =>
      have hvu : v ≠ u := hops v itm p o (List.mem_cons_self _ _)
      rw [applyPlannedOp]
      split
      · rename_i hget
        rw [← List.count_pos_iff,
          count_eraseIdx_of_get remote p (some v) (some u) hget (by simp [Ne.symm hvu])]
        exact List.count_pos_iff.mpr h
      · exact h

/-! ## C1 support: structure of the duplicate groups -/

/-- A list containing two distinct elements has length at least two. -/
theorem two_le_length_of_mem_ne {α : Type} {x y : α} :
    ∀ {l : List α}, x ∈ l → y ∈ l → x ≠ y → 2 ≤ l.length
  | [], hx, _, _ => by simp at hx
  | a :: t, hx, hy, hne => by
    rcases List.mem_cons.mp hx with rfl | hx2
    · rcases List.mem_cons.mp hy with rfl | hy2
      · exact absurd rfl hne
      · have := List.length_pos_of_mem hy2
        simp
        omega
    · have := List.length_pos_of_mem hx2
      simp
      omega

/-- Characterization of a duplicate group: its occurrence list is
exactly the sublist of scan records with its key, it has at least two
occurrences, and the occurrences are in strictly increasing position
order. -/
theorem duplicateGroups_char (tracks : List (Option Track)) (g : String × List TrackInfo)
    (hg : g ∈ duplicateGroups tracks) :
    g.2 = (scanInfos tracks).filter (fun r => decide (r.key = g.1)) ∧
    1 < g.2.length ∧
    g.2.Pairwise (fun a b => a.position < b.position) := by
  rcases List.mem_filterMap.mp hg with ⟨kv, hkv, heq⟩
  by_cases hlen : 1 < kv.2.length
  · rw [if_pos hlen] at heq
    injection heq with heq2
    have hbucket : kv.2 = (scanInfos tracks).filter (fun r => decide (r.key = kv.1)) := by
      have := buildAssoc_mem_eq (scanInfos tracks) (fun r => r.key) id kv.1 kv.2
        (by rcases kv with ⟨k1, v1⟩; exact hkv)
      rw [List.map_id] at this
      exact this
    have hpw : kv.2.Pairwise (fun a b => a.position < b.position) := by
      rw [hbucket]
      exact List.Pairwise.sublist (List.filter_sublist _)
        (scanInfosFrom_position_pairwise tracks 0)
    have hsorted : pySorted (fun a b => decide (a.position ≤ b.position)) kv.2 = kv.2 :=
      pySorted_of_pairwise _ kv.2
        (hpw.imp (fun h => decide_eq_true (Nat.le_of_lt h)))
    rcases g with ⟨gk, gl⟩
    injection heq2 with hk hl
    subst hk
    subst hl
    rw [hsorted]
    exact ⟨hbucket, hlen, hpw⟩
  · rw [if_neg hlen] at heq
    exact absurd heq (by simp)

/-- A duplicate group member is a scan record carrying the group key. -/
theorem duplicateGroups_mem_scan (tracks : List (Option Track))
    (g : String × List TrackInfo) (hg : g ∈ duplicateGroups tracks)
    (r : TrackInfo) (hr : r ∈ g.2) :
    r ∈ scanInfos tracks ∧ r.key = g.1 := by
  have hchar := (duplicateGroups_char tracks g hg).1
  rw [hchar] at hr
  exact ⟨List.mem_of_mem_filter hr, by simpa using (List.mem_filter.mp hr).2⟩

/-- Scan records are determined by their position. -/
theorem scanInfos_position_inj (tracks : List (Option Track))
    (x y : TrackInfo) (hx : x ∈ scanInfos tracks) (hy : y ∈ scanInfos tracks)
    (hpos : x.position = y.position) : x = y := by
  have hnd : ((scanInfos tracks).map (fun r => r.position)).Nodup :=
    List.pairwise_map.mpr
      ((scanInfosFrom_position_pairwise tracks 0).imp (fun h => Nat.ne_of_lt h))
  exact List.inj_on_of_nodup_map hnd hx hy hpos

/-- The keeper of a duplicate group differs from every removal
candidate (of any group). -/
theorem keeper_ne_candidate (tracks : List (Option Track))
    (g : String × List TrackInfo) (hg : g ∈ duplicateGroups tracks)
    (keeper : TrackInfo) (hk : g.2.head? = some keeper)
    (c : TrackInfo) (hc : c ∈ removalCandidates tracks) :
    c ≠ keeper ∧ c.position ≠ keeper.position := by
  rcases List.mem_flatMap.mp hc with ⟨g2, hg2, hct⟩
  have hchar := duplicateGroups_char tracks g hg
  have hchar2 := duplicateGroups_char tracks g2 hg2
  have hkmem : keeper ∈ g.2 := List.mem_of_mem_head? hk
  have hkscan := duplicateGroups_mem_scan tracks g hg keeper hkmem
  have hcscan := duplicateGroups_mem_scan tracks g2 hg2 c ((List.tail_sublist _).mem hct)
  have hne : c ≠ keeper := by
    by_cases hkey : g2.1 = g.1
    · have hsame : g2.2 = g.2 := by
        rw [hchar2.1, hchar.1, hkey]
      rcases List.head?_eq_some_iff.mp hk with ⟨t, hgt⟩
      have hct2 : c ∈ g.2.tail := by
        rw [← hsame]
        exact hct
      rw [hgt] at hct2
      have hlt : keeper.position < c.position := by
        have hpw := hchar.2.2
        rw [hgt] at hpw
        exact (List.pairwise_cons.mp hpw).1 c (by simpa using hct2)
      intro heq
      rw [heq] at hlt
      exact Nat.lt_irrefl _ hlt
    · intro heq
      apply hkey
      rw [← hcscan.2, heq, hkscan.2]
  refine ⟨hne, fun hpos => hne (scanInfos_position_inj tracks c keeper hcscan.1 hkscan.1 hpos)⟩

/-- The keeper of a duplicate group never carries the URI of a
position-specific (unique-URI) removal: any candidate sharing the
keeper URI would make that URI occur at least twice in the snapshot. -/
theorem keeper_uri_not_unique (tracks : List (Option Track))
    (g : String × List TrackInfo) (hg : g ∈ duplicateGroups tracks)
    (keeper : TrackInfo) (hk : g.2.head? = some keeper) :
    ∀ it ∈ uniqueURIRemovals tracks, it.uri ≠ keeper.uri := by
  intro it hit huri
  have hitf := List.mem_filter.mp hit
  have hcand : it ∈ removalCandidates tracks := hitf.1
  have hshared : ¬ 1 < uriUsageCount tracks it.uri := by
    have := hitf.2
    simpa [isSharedURI] using this
  have hkmem : keeper ∈ g.2 := List.mem_of_mem_head? hk
  have hkscan := duplicateGroups_mem_scan tracks g hg keeper hkmem
  have hitscan : it ∈ scanInfos tracks := removalCandidates_subset_scanInfos tracks it hcand
  have hne : it ≠ keeper := (keeper_ne_candidate tracks g hg keeper hk it hcand).1
  have h2 : 2 ≤ uriUsageCount tracks it.uri := by
    rw [uriUsageCount_eq_filter_length]
    exact two_le_length_of_mem_ne
      (List.mem_filter.mpr ⟨hitscan, by simp⟩)
      (List.mem_filter.mpr ⟨hkscan.1, by simp [huri]⟩)
      hne
  omega

/-! ## C1: the keeper invariant -/

/-- C1: for every duplicate group, the occurrence with the lowest
original position (the keeper, the head of the position-sorted
occurrence list) is excluded from the removal-candidate list, and
neither the planned operations (tracked by the final planning
simulation) nor their execution against the remote collection remove
its URI from the final collection. -/
theorem keeper_invariant (tracks : List (Option Track))
    (g : String × List TrackInfo) (hg : g ∈ duplicateGroups tracks)
    (keeper : TrackInfo) (hk : g.2.head? = some keeper) :
    keeper.position ∉ (removalCandidates tracks).map (fun r => r.position) ∧
    some keeper.uri ∈ (planOperations tracks).2 ∧
    some keeper.uri ∈ executePlan tracks := by
  have hkmem : keeper ∈ g.2 := List.mem_of_mem_head? hk
  have hkscan := duplicateGroups_mem_scan tracks g hg keeper hkmem
  have hinit : some keeper.uri ∈ initialSimulation tracks :=
    scanInfosFrom_uri_mem tracks 0 keeper hkscan.1
  have huris : ∀ it ∈ sortedUniqueRemovals tracks, it.uri ≠ keeper.uri := by
    intro it hit
    exact keeper_uri_not_unique tracks g hg keeper hk it
      ((pySorted_perm _ (uniqueURIRemovals tracks)).subset hit)
  refine ⟨?_, ?_, ?_⟩
  · intro hmem
    rcases List.mem_map.mp hmem with ⟨c, hc, hpos⟩
    exact (keeper_ne_candidate tracks g hg keeper hk c hc).2 hpos
  · rw [planOperations]
    exact planUniqueAux_preserves_mem (sortedUniqueRemovals tracks) _ keeper.uri huris
      (planIdenticalAux_preserves_mem (identicalURIGroups tracks)
        (initialSimulation tracks) keeper.uri hinit)
  · rw [executePlan]
    refine foldl_applyPlannedOp_mem keeper.uri _ _ ?_ hinit
    intro v it p o hop
    rw [planOperations] at hop
    rcases List.mem_append.mp hop with hop1 | hop2
    · exact absurd hop1 (fun hh =>
        planIdenticalAux_ops_shape (identicalURIGroups tracks) _ v it p o hh)
    · rcases planUniqueAux_ops_uri (sortedUniqueRemovals tracks) _ v it p o hop2
        with ⟨it2, hit2, hveq⟩
      rw [hveq]
      exact huris it2 hit2

/-- Witness for `keeper_invariant` on `plainPairTracks`: the keeper of
the one duplicate group sits at position 0 with URI `p`, is no removal
candidate, and survives both the planning simulation and the executed
plan. -/
theorem keeper_invariant_witness :
    (⟨0, "p", "song z|||c"⟩ : TrackInfo).position ∉
      (removalCandidates plainPairTracks).map (fun r => r.position) ∧
    some (⟨0, "p", "song z|||c"⟩ : TrackInfo).uri ∈ (planOperations plainPairTracks).2 ∧
    some (⟨0, "p", "song z|||c"⟩ : TrackInfo).uri ∈ executePlan plainPairTracks :=
  keeper_invariant plainPairTracks
    ("song z|||c", [⟨0, "p", "song z|||c"⟩, ⟨1, "q", "song z|||c"⟩])
    (by decide) ⟨0, "p", "song z|||c"⟩ (by decide)

/-! ## C5 support: the date comparison is a total preorder -/

/-- Lexicographic comparison is total. -/
theorem charListLE_total : ∀ (as bs : List Char),
    charListLE as bs = true ∨ charListLE bs as = true
  | [], _ => Or.inl rfl
  | _ :: _, [] => Or.inr rfl
  | a :: as, b :: bs => by
    rw [charListLE, charListLE]
    by_cases h1 : a.toNat < b.toNat
    · exact Or.inl (by simp [h1])
    · by_cases h2 : b.toNat < a.toNat
      · exact Or.inr (by simp [h2])
      · rcases charListLE_total as bs with h | h
        · exact Or.inl (by simp [h1, h2, h])
        · exact Or.inr (by simp [h1, h2, h])

/-- Lexicographic comparison is transitive. -/
theorem charListLE_trans : ∀ (as bs cs : List Char),
    charListLE as bs = true → charListLE bs cs = true → charListLE as cs = true
  | [], _, _, _, _ => rfl
  | _ :: _, [], _, h1, _ => by rw [charListLE] at h1; exact absurd h1 (by simp)
  | _ :: _, _ :: _, [], _, h2 => by rw [charListLE] at h2; exact absurd h2 (by simp)
  | a :: as, b :: bs, c :: cs, h1, h2 => by
    rw [charListLE] at h1 h2 ⊢
    have h1b : a.toNat < b.toNat ∨ (a.toNat = b.toNat ∧ charListLE as bs = true) := by
      by_cases hab : a.toNat < b.toNat
      · exact Or.inl hab
      · by_cases hba : b.toNat < a.toNat
        · rw [if_neg hab, if_pos hba] at h1
          exact absurd h1 (by simp)
        · rw [if_neg hab, if_neg hba] at h1
          exact Or.inr ⟨by omega, h1⟩
    have h2b : b.toNat < c.toNat ∨ (b.toNat = c.toNat ∧ charListLE bs cs = true) := by
      by_cases hbc : b.toNat < c.toNat
      · exact Or.inl hbc
      · by_cases hcb : c.toNat < b.toNat
        · rw [if_neg hbc, if_pos hcb] at h2
          exact absurd h2 (by simp)
        · rw [if_neg hbc, if_neg hcb] at h2
          exact Or.inr ⟨by omega, h2⟩
    rcases h1b with hab | ⟨hab, hrec1⟩ <;> rcases h2b with hbc | ⟨hbc, hrec2⟩
    · rw [if_pos (by omega)]
    · rw [if_pos (by omega)]
    · rw [if_pos (by omega)]
    · rw [if_neg (by omega), if_neg (by omega)]
      exact charListLE_trans as bs cs hrec1 hrec2

/-- The track comparison used by the sort planner is transitive. -/
theorem rtrackLE_trans (nf : Bool) (a b c : RTrack)
    (h1 : rtrackLE nf a b = true) (h2 : rtrackLE nf b c = true) :
    rtrackLE nf a c = true := by
  cases nf <;> simp only [rtrackLE, dateLE, if_true, if_false, pyStrLE,
    Bool.false_eq_true, ite_false, ite_true] at h1 h2 ⊢
  · exact charListLE_trans _ _ _ h1 h2
  · exact charListLE_trans _ _ _ h2 h1

/-- The track comparison used by the sort planner is total. -/
theorem rtrackLE_total (nf : Bool) (a b : RTrack) :
    rtrackLE nf a b = true ∨ rtrackLE nf b a = true := by
  cases nf <;> simp only [rtrackLE, dateLE, pyStrLE, Bool.false_eq_true,
    ite_false, ite_true]
  · exact charListLE_total _ _
  · exact (charListLE_total _ _).symm

/-! ## C5 support: moves commute with mapping, and range facts -/

/-- Erasing commutes with mapping. -/
theorem map_eraseIdx {α β : Type} (f : α → β) :
    ∀ (l : List α) (i : Nat), (l.eraseIdx i).map f = (l.map f).eraseIdx i
  | [], _ => by simp
  | _ :: _, 0 => by simp
  | a :: l, i + 1 => by simp [map_eraseIdx f l i]

/-- Inserting commutes with mapping. -/
theorem map_insertIdx {α β : Type} (f : α → β) :
    ∀ (i : Nat) (l : List α) (x : α),
      (l.insertIdx i x).map f = (l.map f).insertIdx i (f x)
  | 0, l, x => by simp [List.insertIdx_zero]
  | i + 1, [], x => by simp [List.insertIdx_succ_nil]
  | i + 1, a :: l, x => by simp [List.insertIdx_succ_cons, map_insertIdx f i l x]

/-- Inserting at the boundary of an append splices the element in. -/
theorem insertIdx_length_append {α : Type} (x : α) :
    ∀ (l₁ l₂ : List α), (l₁ ++ l₂).insertIdx l₁.length x = l₁ ++ x :: l₂
  | [], l₂ => by simp [List.insertIdx_zero]
  | a :: l₁, l₂ => by
    simp only [List.cons_append, List.length_cons, List.insertIdx_succ_cons]
    rw [insertIdx_length_append x l₁ l₂]

/-- Applying a move sequence commutes with mapping the collection. -/
theorem applyMoves_map {α β : Type} (f : α → β) :
    ∀ (moves : List (Nat × Nat)) (l : List α),
      applyMoves moves (l.map f) = (applyMoves moves l).map f
  | [], _ => rfl
  | m :: moves, l => by
    have hstep : applyMove (l.map f) m = (applyMove l m).map f := by
      rw [applyMove, applyMove, List.getElem?_map]
      cases l[m.1]? with
      | none => simp
      | some x => simp [map_eraseIdx, map_insertIdx]
    calc applyMoves (m :: moves) (l.map f)
        = applyMoves moves (applyMove (l.map f) m) := rfl
      _ = applyMoves moves ((applyMove l m).map f) := by rw [hstep]
      _ = (applyMoves moves (applyMove l m)).map f := applyMoves_map f moves _
      _ = (applyMoves (m :: moves) l).map f := rfl

/-- Reading a list back off the range of its indices. -/
theorem map_getD_range {α : Type} (d : α) :
    ∀ (l : List α), (List.range l.length).map (fun i => l.getD i d) = l
  | [] => rfl
  | a :: l => by
    rw [List.length_cons, List.range_succ_eq_map, List.map_cons, List.map_map]
    have hcomp : ((fun i => (a :: l).getD i d) ∘ Nat.succ) = fun i => l.getD i d := by
      funext i
      simp
    rw [hcomp, map_getD_range d l]
    simp

/-! ## C5: the emitted moves realize the stable sort -/

/-- Core invariant of the move-building loop: starting from a
duplicate-free working list `cp` whose first `t` entries are already
final, with the (duplicate-free) remaining targets all lying in the
unprocessed suffix, the loop ends with the working list equal to the
already-final prefix, then the targets in order, then the untargeted
leftovers in their current order — and replaying the emitted moves on
`cp` reproduces exactly the final working list. -/
theorem genMovesAux_spec :
    ∀ (targets : List Nat) (t : Nat) (cp : List Nat),
      cp.Nodup → targets.Nodup → (∀ s2 ∈ targets, s2 ∈ cp.drop t) →
      (genMovesAux targets t cp).2 =
        cp.take t ++ targets ++ (cp.drop t).filter (fun x => decide (x ∉ targets)) ∧
      applyMoves (genMovesAux targets t cp).1 cp = (genMovesAux targets t cp).2
  | [], t, cp, _, _, _ => by
    refine ⟨?_, rfl⟩
    show cp = (cp.take t ++ []) ++
      (cp.drop t).filter (fun x => decide (x ∉ ([] : List Nat)))
    rw [List.append_nil, List.filter_eq_self.mpr (fun a _ => by simp),
      List.take_append_drop]
  | s :: rest, t, cp, hcp, htg, hsub => by
    have hs : s ∈ cp.drop t := hsub s (List.mem_cons_self s rest)
    have hscp : s ∈ cp := (List.drop_sublist t cp).mem hs
    have hlt : t < cp.length := by
      by_contra hge
      rw [List.drop_eq_nil_of_le (by omega)] at hs
      simp at hs
    have hssub : s ∉ cp.take t := by
      have hnd2 : (cp.take t ++ cp.drop t).Nodup := by
        rw [List.take_append_drop]
        exact hcp
      exact fun hmem => (List.nodup_append.mp hnd2).2.2 hmem hs
    have hlen_take : (cp.take t).length = t := by
      rw [List.length_take]
      omega
    have hidx : cp.indexOf s = t + (cp.drop t).indexOf s := by
      conv_lhs => rw [← List.take_append_drop t cp]
      rw [List.indexOf_append_of_not_mem hssub, hlen_take]
    have hdlen : (cp.drop t).indexOf s < (cp.drop t).length :=
      List.indexOf_lt_length.mpr hs
    have hrestne : ∀ s2 ∈ rest, s2 ≠ s := by
      intro s2 hs2 heq
      exact (List.nodup_cons.mp htg).1 (heq ▸ hs2)
    have hdropnd : (cp.drop t).Nodup := (List.drop_sublist t cp).nodup hcp
    rw [genMovesAux]
    dsimp only
    by_cases hct : cp.indexOf s = t
    · rw [if_pos hct]
      have h2 : cp[t]? = some s := by
        have h3 := List.getElem?_eq_getElem (List.indexOf_lt_length.mpr hscp)
        rw [List.getElem_indexOf] at h3
        rw [hct] at h3
        exact h3
      have hdropt : cp.drop t = s :: cp.drop (t + 1) := by
        rw [List.drop_eq_getElem_cons hlt]
        rcases List.getElem?_eq_some_iff.mp h2 with ⟨h4, h5⟩
        rw [h5]
      have hsnod : s ∉ cp.drop (t + 1) := by
        have hnd3 := hdropnd
        rw [hdropt] at hnd3
        exact (List.nodup_cons.mp hnd3).1
      have hsub2 : ∀ s2 ∈ rest, s2 ∈ cp.drop (t + 1) := by
        intro s2 hs2
        have hm := hsub s2 (List.mem_cons_of_mem s hs2)
        rw [hdropt] at hm
        rcases List.mem_cons.mp hm with heq | hm2
        · exact absurd heq (hrestne s2 hs2)
        · exact hm2
      have ih := genMovesAux_spec rest (t + 1) cp hcp (List.nodup_cons.mp htg).2 hsub2
      refine ⟨?_, ih.2⟩
      rw [ih.1]
      have htake : cp.take (t + 1) = cp.take t ++ [s] := by
        rw [List.take_succ, h2]
        rfl
      have hfield : (cp.drop t).filter (fun x => decide (x ∉ s :: rest)) =
          (cp.drop (t + 1)).filter (fun x => decide (x ∉ rest)) := by
        rw [hdropt, List.filter_cons_of_neg (by simp)]
        refine List.filter_congr ?_
        intro x hx
        have hxs : x ≠ s := fun heq => hsnod (heq ▸ hx)
        simp [List.mem_cons, hxs]
      rw [htake, hfield]
      simp [List.append_assoc]
    · rw [if_neg hct]
      have hgetd : cp.getD (cp.indexOf s) 0 = s := by
        have h3 := List.getElem?_eq_getElem (List.indexOf_lt_length.mpr hscp)
        rw [List.getElem_indexOf] at h3
        rw [List.getD_eq_getElem?_getD, h3]
        rfl
      have hcp2 : (cp.eraseIdx (cp.indexOf s)).insertIdx t (cp.getD (cp.indexOf s) 0) =
          cp.take t ++ s :: (cp.drop t).erase s := by
        have he1 : cp.eraseIdx (t + (cp.drop t).indexOf s) =
            cp.take t ++ (cp.drop t).eraseIdx ((cp.drop t).indexOf s) := by
          have h5 := List.eraseIdx_append_of_length_le
            (l := cp.take t) (k := t + (cp.drop t).indexOf s)
            (by rw [hlen_take]; omega) (cp.drop t)
          rw [List.take_append_drop, hlen_take, Nat.add_sub_cancel_left] at h5
          exact h5
        rw [hgetd, hidx, he1, List.eraseIdx_indexOf_eq_erase]
        have h6 := insertIdx_length_append s (cp.take t) ((cp.drop t).erase s)
        rw [hlen_take] at h6
        exact h6
      rw [hcp2]
      have hperm2 : List.Perm (cp.take t ++ s :: (cp.drop t).erase s) cp := by
        have hp1 : List.Perm (s :: (cp.drop t).erase s) (cp.drop t) :=
          (List.perm_cons_erase hs).symm
        have hp2 := List.Perm.append_left (cp.take t) hp1
        rw [List.take_append_drop] at hp2
        exact hp2
      have hcp2nd : (cp.take t ++ s :: (cp.drop t).erase s).Nodup :=
        hcp.perm hperm2.symm
      have htake2 : (cp.take t ++ s :: (cp.drop t).erase s).take (t + 1) =
          cp.take t ++ [s] := by
        conv_lhs => rw [show t + 1 = (cp.take t).length + 1 by rw [hlen_take]]
        rw [List.take_append]
        rfl
      have hdrop2 : (cp.take t ++ s :: (cp.drop t).erase s).drop (t + 1) =
          (cp.drop t).erase s := by
        conv_lhs => rw [show t + 1 = (cp.take t).length + 1 by rw [hlen_take]]
        rw [List.drop_append]
        rfl
      have hsub2 : ∀ s2 ∈ rest,
          s2 ∈ (cp.take t ++ s :: (cp.drop t).erase s).drop (t + 1) := by
        intro s2 hs2
        rw [hdrop2, List.mem_erase_of_ne (hrestne s2 hs2)]
        exact hsub s2 (List.mem_cons_of_mem s hs2)
      have ih := genMovesAux_spec rest (t + 1) (cp.take t ++ s :: (cp.drop t).erase s)
        hcp2nd (List.nodup_cons.mp htg).2 hsub2
      have hfilter : ((cp.drop t).erase s).filter (fun x => decide (x ∉ rest)) =
          (cp.drop t).filter (fun x => decide (x ∉ s :: rest)) := by
        rw [List.Nodup.erase_eq_filter hdropnd, List.filter_filter]
        refine (List.filter_congr ?_).symm
        intro x hx
        by_cases hxs : x = s
        · simp [hxs]
        · simp [List.mem_cons, hxs]
      refine ⟨?_, ?_⟩
      · rw [ih.1, htake2, hdrop2, hfilter]
        simp [List.append_assoc]
      · have hg : cp[cp.indexOf s]? = some s := by
          have h3 := List.getElem?_eq_getElem (List.indexOf_lt_length.mpr hscp)
          rw [List.getElem_indexOf] at h3
          exact h3
        have hmove : applyMove cp (cp.indexOf s, t) =
            cp.take t ++ s :: (cp.drop t).erase s := by
          rw [applyMove]
          dsimp only
          rw [hg]
          dsimp only
          rw [hgetd] at hcp2
          exact hcp2
        calc applyMoves ((cp.indexOf s, t) :: (genMovesAux rest (t + 1)
              (cp.take t ++ s :: (cp.drop t).erase s)).1) cp
            = applyMoves (genMovesAux rest (t + 1)
                (cp.take t ++ s :: (cp.drop t).erase s)).1
                (applyMove cp (cp.indexOf s, t)) := rfl
          _ = applyMoves (genMovesAux rest (t + 1)
                (cp.take t ++ s :: (cp.drop t).erase s)).1
                (cp.take t ++ s :: (cp.drop t).erase s) := by rw [hmove]
          _ = _ := ih.2

/-- C5: applying the emitted single-item moves of the batch sort
planner to the track data, in emitted order, yields exactly the stable
sort of the track data by normalized release date — descending for
newest-first, ascending for oldest-first, with tied keys preserving
their original relative order (the stable sort model `pySorted`); in
particular the result is a permutation of the input that is sorted for
the chosen comparison. -/
theorem batch_sort_moves_realize_stable_sort (tracks : List (Option RTrack))
    (newestFirst : Bool) :
    applyMoves (batchMoves tracks newestFirst) (batchTrackData tracks) =
      pySorted (rtrackLE newestFirst) (batchTrackData tracks) ∧
    List.Perm (applyMoves (batchMoves tracks newestFirst) (batchTrackData tracks))
      (batchTrackData tracks) ∧
    (applyMoves (batchMoves tracks newestFirst) (batchTrackData tracks)).Pairwise
      (fun a b => rtrackLE newestFirst a b = true) := by
  have hmain : applyMoves (batchMoves tracks newestFirst) (batchTrackData tracks) =
      pySorted (rtrackLE newestFirst) (batchTrackData tracks) := by
    set td := batchTrackData tracks with htd
    set f : Nat → RTrack := fun i => td.getD i ⟨"", ""⟩ with hf
    have htargnd : (sortedIndices td newestFirst).Nodup :=
      (List.nodup_range td.length).perm
        (pySorted_perm _ (List.range td.length)).symm
    have hsubset : ∀ s2 ∈ sortedIndices td newestFirst,
        s2 ∈ (List.range td.length).drop 0 := by
      intro s2 hs2
      rw [List.drop_zero]
      exact (pySorted_perm _ (List.range td.length)).subset hs2
    have hspec := genMovesAux_spec (sortedIndices td newestFirst) 0
      (List.range td.length) (List.nodup_range td.length) htargnd hsubset
    have hfinal : (genMovesAux (sortedIndices td newestFirst) 0
        (List.range td.length)).2 = sortedIndices td newestFirst := by
      rw [hspec.1, List.take_zero, List.drop_zero, List.nil_append,
        List.filter_eq_nil_iff.mpr ?_, List.append_nil]
      intro x hx
      simp only [decide_eq_true_eq, not_not]
      exact (pySorted_perm _ (List.range td.length)).symm.subset hx
    have happly : applyMoves (batchMoves tracks newestFirst) (List.range td.length) =
        sortedIndices td newestFirst := by
      rw [show batchMoves tracks newestFirst =
        (genMovesAux (sortedIndices td newestFirst) 0 (List.range td.length)).1
        from rfl]
      rw [hspec.2, hfinal]
    have htdmap : (List.range td.length).map f = td := map_getD_range ⟨"", ""⟩ td
    have hsortmap : (sortedIndices td newestFirst).map f =
        pySorted (rtrackLE newestFirst) td := by
      rw [sortedIndices,
        pySorted_map (fun i j => dateLE newestFirst (sortKeyAt td i) (sortKeyAt td j))
          (rtrackLE newestFirst) f (fun x y => rfl) (List.range td.length),
        htdmap]
    calc applyMoves (batchMoves tracks newestFirst) td
        = applyMoves (batchMoves tracks newestFirst) ((List.range td.length).map f) := by
          rw [htdmap]
      _ = (applyMoves (batchMoves tracks newestFirst) (List.range td.length)).map f :=
          applyMoves_map f _ _
      _ = (sortedIndices td newestFirst).map f := by rw [happly]
      _ = pySorted (rtrackLE newestFirst) td := hsortmap
  refine ⟨hmain, ?_, ?_⟩
  · rw [hmain]
    exact pySorted_perm _ _
  · rw [hmain]
    exact pySorted_pairwise _ (rtrackLE_trans newestFirst) (rtrackLE_total newestFirst) _

end PlaylistManager
